import Mathlib

/-
Verification of the labelselector front-end: a shallow embedding of the
character-level tokenizer (lexer.go) and the token-level recursive-descent
parser (parser.go), together with proofs about the parsing pipeline.

The input stream is modelled as a `List Char`.  Go's `read()` returns
`rune(0)` both at end of input and when it reads a NUL byte, so the
embedding treats the character `Char.ofNat 0` exactly as the Go code does:
wherever the Go loop would `break` on `ch == eof` after a successful read,
the model consumes that character and stops.
-/

/-- Token represents a lexical token (lexer.go).  The four comparison tokens
are referenced by the parser's dispatch; they belong to the richer variant
of the lexer (see `lexCompare`). -/
inductive Token where
  | ILLEGAL
  | EOF
  | WS
  | IDENT
  | COMMA
  | EXCLAMATION_MARK
  | IN
  | NOT
  | EQUAL
  | NOT_EQUAL
  | OPENING_BRACKET
  | CLOSING_BRACKET
  | LOWER_THAN
  | LOWER_THAN_EQUAL
  | GREATER_THAN
  | GREATER_THAN_EQUAL
  deriving DecidableEq, Repr

/-- The closed enumeration of requirement operations (labelselector.go). -/
inductive Operation where
  | OperationIn
  | OperationNotIn
  | OperationExists
  | OperationNotExists
  | OperationEquals
  | OperationNotEquals
  | OperationLowerThan
  | OperationGreaterThan
  | OperationLowerThanEqual
  | OperationGreaterThanEqual
  deriving DecidableEq, Repr

/-- One filter clause (labelselector.go).  Go's zero values for the unused
fields are the empty string and the empty list. -/
structure Requirement where
  Key : String
  Value : String
  Values : List String
  Operation : Operation
  deriving DecidableEq, Repr

/-- A label selector is an ordered list of requirements (labelselector.go). -/
structure LabelSelector where
  Requirements : List Requirement
  deriving DecidableEq, Repr

/-- Go's `eof = rune(0)`: returned by `read()` on error/EOF, and also the
value obtained when the input actually contains a NUL character. -/
def eofRune : Char := Char.ofNat 0

/-- isWhitespace from lexer.go. -/
def isWhitespace (ch : Char) : Bool :=
  ch = ' ' || ch = '\t' || ch = '\n'

/-- isValidIdentRune from lexer.go. -/
def isValidIdentRune (ch : Char) : Bool :=
  ('a' ≤ ch && ch ≤ 'z') ||
  ('A' ≤ ch && ch ≤ 'Z') ||
  ('0' ≤ ch && ch ≤ '9') ||
  (ch = '_') ||
  (ch = '-') ||
  (ch = '.') ||
  (ch = '/')

/-- The shared read loop of `scanWhitespace` and `scanIdent`: keep consuming
characters while `p` holds.  A character equal to `eofRune` is consumed and
ends the loop (Go breaks on `ch == eof` without unreading); any other
character failing `p` is unread (left in the remainder). -/
def scanRun (p : Char → Bool) : List Char → List Char × List Char
  | [] => ([], [])
  | c :: rest =>
    if c = eofRune then ([], rest)
    else if p c then
      let r := scanRun p rest
      (c :: r.1, r.2)
    else ([], c :: rest)

/-- scanWhitespace from lexer.go: `c` is the already-inspected first
whitespace character, the loop then consumes every contiguous following
whitespace character. -/
def scanWhitespace (c : Char) (input : List Char) : Token × String × List Char :=
  let r := scanRun isWhitespace input
  (Token.WS, String.mk (c :: r.1), r.2)

/-- Go's `strings.ToUpper` as used by the keyword check: uppercase every
character (the scanner only feeds it ASCII identifier runs, on which
`Char.toUpper` agrees with Go's case folding). -/
def toUpperString (s : String) : String :=
  String.mk (s.data.map Char.toUpper)

/-- scanIdent from lexer.go: `c` is the already-inspected first identifier
character; consume the contiguous identifier run, then recognize the
keywords NOT and IN case-insensitively, otherwise emit IDENT with the
original-case text. -/
def scanIdent (c : Char) (input : List Char) : Token × String × List Char :=
  let r := scanRun isValidIdentRune input
  let str := String.mk (c :: r.1)
  if toUpperString str = "NOT" then (Token.NOT, str, r.2)
  else if toUpperString str = "IN" then (Token.IN, str, r.2)
  else (Token.IDENT, str, r.2)

/-- The loop of scanQuotedIdent from lexer.go: consume characters until an
end of input / NUL read, or a `"` whose immediately preceding consumed
character (`last`) was not a backslash.  The terminating character is
consumed but not stored. -/
def scanQuotedIdentAux : List Char → Char → List Char × List Char
  | [], _ => ([], [])
  | c :: rest, last =>
    if c = eofRune ∨ (c = '"' ∧ ¬ last = '\\') then ([], rest)
    else
      let r := scanQuotedIdentAux rest c
      (c :: r.1, r.2)

/-- scanQuotedIdent from lexer.go: called after the opening `"` was consumed;
`last` starts at Go's zero-value rune. -/
def scanQuotedIdent (input : List Char) : Token × String × List Char :=
  let r := scanQuotedIdentAux input eofRune
  (Token.IDENT, String.mk r.1, r.2)

/-- Go's `string(ch)` for the one-character lookahead that the `!` and `=`
cases of `Lexer.Next` read (and unread): at end of input the read yields
`rune(0)`, so the literal becomes the one-character NUL string. -/
def readLit : List Char → String
  | [] => String.mk [eofRune]
  | c :: _ => String.mk [c]

/-- Modelled from the spec: the tokenizer's `<` and `>` cases are missing
from src/lexer.go (which predates the comparison operators), while the
parser under src dispatches on their tokens; §4.1 of the spec defines them:
`<` followed by `=` emits LowerThanEqual, otherwise LowerThan, and `>`
followed by `=` emits GreaterThanEqual, otherwise GreaterThan. -/
def lexCompare (c : Char) (rest : List Char) : Token × String × List Char :=
  if c = '<' then
    match rest with
    | '=' :: rest2 => (Token.LOWER_THAN_EQUAL, "<=", rest2)
    | _ => (Token.LOWER_THAN, "<", rest)
  else
    match rest with
    | '=' :: rest2 => (Token.GREATER_THAN_EQUAL, ">=", rest2)
    | _ => (Token.GREATER_THAN, ">", rest)

/-- Lexer.Next from lexer.go: read one character and dispatch.  The branch
order mirrors the Go switch; the `<`/`>` dispatch is the spec-modelled
`lexCompare`. -/
def lexNext : List Char → Token × String × List Char
  | [] => (Token.EOF, "", [])
  | c :: rest =>
    if isWhitespace c then scanWhitespace c rest
    else if isValidIdentRune c then scanIdent c rest
    else if c = '"' then scanQuotedIdent rest
    else if c = eofRune then (Token.EOF, "", rest)
    else if c = '!' then
      match rest with
      | '=' :: rest2 => (Token.NOT_EQUAL, "!=", rest2)
      | _ => (Token.EXCLAMATION_MARK, readLit rest, rest)
    else if c = '=' then
      match rest with
      | '=' :: rest2 => (Token.EQUAL, "==", rest2)
      | _ => (Token.EQUAL, readLit rest, rest)
    else if c = ',' then (Token.COMMA, String.mk [c], rest)
    else if c = '(' then (Token.OPENING_BRACKET, String.mk [c], rest)
    else if c = ')' then (Token.CLOSING_BRACKET, String.mk [c], rest)
    else if c = '<' || c = '>' then lexCompare c rest
    else (Token.ILLEGAL, String.mk [c], rest)

/-- Driver turning the pull-based lexer into the full token sequence of an
input.  The fuel argument only bounds the recursion; every call through
`tokenize` supplies enough fuel (each `lexNext` on a nonempty input consumes
at least one character), so the zero-fuel case is unreachable. -/
def tokenizeFuel : Nat → List Char → List (Token × String)
  | 0, _ => []
  | _, [] => []
  | fuel + 1, c :: rest =>
    let r := lexNext (c :: rest)
    (r.1, r.2.1) :: tokenizeFuel fuel r.2.2

/-- The token sequence of an input, ending where the lexer would keep
reporting EOF forever. -/
def tokenize (l : List Char) : List (Token × String) :=
  tokenizeFuel (l.length + 1) l

/-- Parser.next from parser.go: pull tokens from the lexer, transparently
skipping whitespace tokens.  On the parser side the already-produced token
sequence stands in for the lexer, with the end of the list playing the role
of the lexer's everlasting EOF. -/
def nextTok : List (Token × String) → (Token × String) × List (Token × String)
  | [] => ((Token.EOF, ""), [])
  | t :: rest => if t.1 = Token.WS then nextTok rest else (t, rest)

/-- The shape shared verbatim by the six binary-operator sub-parsers of
parser.go (`parseEqualRequirement`, `parseNotEqualRequirement`, the four
comparison ones): the next non-whitespace token must be an identifier,
otherwise fail with the operator-specific message; on success build the
requirement from the key, the identifier literal and the operation. -/
def parseBinaryRequirement (op : Operation) (msg : String) (key : String)
    (toks : List (Token × String)) :
    Except String (Requirement × List (Token × String)) :=
  let r := nextTok toks
  if r.1.1 = Token.IDENT then
    .ok ({ Key := key, Value := r.1.2, Values := [], Operation := op }, r.2)
  else .error msg

/-- parseNotEqualRequirement from parser.go. -/
def parseNotEqualRequirement : String → List (Token × String) →
    Except String (Requirement × List (Token × String)) :=
  parseBinaryRequirement .OperationNotEquals "expect identifier after not-equal operator"

/-- parseEqualRequirement from parser.go. -/
def parseEqualRequirement : String → List (Token × String) →
    Except String (Requirement × List (Token × String)) :=
  parseBinaryRequirement .OperationEquals "expect identifier after equal operator"

/-- parseLowerThanRequirement from parser.go. -/
def parseLowerThanRequirement : String → List (Token × String) →
    Except String (Requirement × List (Token × String)) :=
  parseBinaryRequirement .OperationLowerThan "expect identifier after < operator"

/-- parseLowerThanEqualRequirement from parser.go. -/
def parseLowerThanEqualRequirement : String → List (Token × String) →
    Except String (Requirement × List (Token × String)) :=
  parseBinaryRequirement .OperationLowerThanEqual "expect identifier after <= operator"

/-- parseGreaterThanRequirement from parser.go. -/
def parseGreaterThanRequirement : String → List (Token × String) →
    Except String (Requirement × List (Token × String)) :=
  parseBinaryRequirement .OperationGreaterThan "expect identifier after > operator"

/-- parseGreaterThanEqualRequirement from parser.go. -/
def parseGreaterThanEqualRequirement : String → List (Token × String) →
    Except String (Requirement × List (Token × String)) :=
  parseBinaryRequirement .OperationGreaterThanEqual "expect identifier after >= operator"

/-- parseIdentList from parser.go: repeatedly read the next token; a closing
bracket ends the list, commas are skipped, identifier literals are collected
in textual order, anything else fails.  The fuel argument only bounds the
recursion (each accepted token shortens the stream); the wrapper
`parseIdentList` always supplies enough, making the zero-fuel case
unreachable. -/
def parseIdentListFuel : Nat → List (Token × String) →
    Except String (List String × List (Token × String))
  | 0, toks => .ok ([], toks)
  | fuel + 1, toks =>
    let r := nextTok toks
    if r.1.1 = Token.CLOSING_BRACKET then .ok ([], r.2)
    else if r.1.1 = Token.COMMA then parseIdentListFuel fuel r.2
    else if r.1.1 = Token.IDENT then
      match parseIdentListFuel fuel r.2 with
      | .ok p => .ok (r.1.2 :: p.1, p.2)
      | .error e => .error e
    else .error ("unexpected token in value list (" ++ r.1.2 ++ ")")

/-- parseIdentList with sufficient fuel for its stream. -/
def parseIdentList (toks : List (Token × String)) :
    Except String (List String × List (Token × String)) :=
  parseIdentListFuel (toks.length + 1) toks

/-- parseNotExistsRequirement from parser.go. -/
def parseNotExistsRequirement (toks : List (Token × String)) :
    Except String (Requirement × List (Token × String)) :=
  let r := nextTok toks
  if r.1.1 = Token.IDENT then
    .ok ({ Key := r.1.2, Value := "", Values := [], Operation := .OperationNotExists }, r.2)
  else .error "expect identifier after exclamation mark"

/-- parseInRequirement from parser.go. -/
def parseInRequirement (key : String) (toks : List (Token × String)) :
    Except String (Requirement × List (Token × String)) :=
  let r := nextTok toks
  if r.1.1 = Token.OPENING_BRACKET then
    match parseIdentList r.2 with
    | .error e => .error e
    | .ok p => .ok ({ Key := key, Value := "", Values := p.1, Operation := .OperationIn }, p.2)
  else .error "expect opening bracket after in operator"

/-- parseNotInRequirement from parser.go: requires the IN keyword, then
parses like an in-requirement and replaces the operation. -/
def parseNotInRequirement (key : String) (toks : List (Token × String)) :
    Except String (Requirement × List (Token × String)) :=
  let r := nextTok toks
  if r.1.1 = Token.IN then
    match parseInRequirement key r.2 with
    | .error e => .error e
    | .ok p => .ok ({ p.1 with Operation := .OperationNotIn }, p.2)
  else .error ("require 'IN' after 'NOT' got '" ++ r.1.2 ++ "'")

/-- The inner switch of Parser.Parse on the token that follows an identifier
key: either a sub-parser result, the exists-requirement case on a consumed
comma/EOF delimiter, or the default "unexpected token" failure. -/
def parseIdentClause (key : String) (toks : List (Token × String)) :
    Except String (Requirement × List (Token × String)) :=
  let r := nextTok toks
  let tok := r.1.1
  if tok = Token.EQUAL then parseEqualRequirement key r.2
  else if tok = Token.NOT_EQUAL then parseNotEqualRequirement key r.2
  else if tok = Token.IN then parseInRequirement key r.2
  else if tok = Token.LOWER_THAN then parseLowerThanRequirement key r.2
  else if tok = Token.LOWER_THAN_EQUAL then parseLowerThanEqualRequirement key r.2
  else if tok = Token.GREATER_THAN then parseGreaterThanRequirement key r.2
  else if tok = Token.GREATER_THAN_EQUAL then parseGreaterThanEqualRequirement key r.2
  else if tok = Token.NOT then parseNotInRequirement key r.2
  else if tok = Token.COMMA ∨ tok = Token.EOF then
    .ok ({ Key := key, Value := "", Values := [], Operation := .OperationExists }, r.2)
  else .error ("unexpected token '" ++ r.1.2 ++ "'")

/-- The top-level loop of Parser.Parse: discard commas, stop at EOF, fail on
an illegal token, dispatch on `!` and identifiers, and append each parsed
requirement.  Go's outer switch has no case for the remaining token kinds,
so such a token is dropped and the loop continues (final branch).  Any
sub-parser error is returned immediately together with the selector built so
far.  The fuel argument only bounds the recursion (every iteration consumes
at least one token); the wrapper `parseLoop` always supplies enough, making
the zero-fuel case unreachable. -/
def parseLoopFuel : Nat → List (Token × String) → List Requirement →
    LabelSelector × Option String
  | 0, _, sel => (⟨sel⟩, none)
  | fuel + 1, toks, sel =>
    let r := nextTok toks
    let tok := r.1.1
    if tok = Token.COMMA then parseLoopFuel fuel r.2 sel
    else if tok = Token.EOF then (⟨sel⟩, none)
    else if tok = Token.ILLEGAL then (⟨sel⟩, some "illegal token")
    else if tok = Token.EXCLAMATION_MARK then
      match parseNotExistsRequirement r.2 with
      | .error e => (⟨sel⟩, some e)
      | .ok p => parseLoopFuel fuel p.2 (sel ++ [p.1])
    else if tok = Token.IDENT then
      match parseIdentClause r.1.2 r.2 with
      | .error e => (⟨sel⟩, some e)
      | .ok p => parseLoopFuel fuel p.2 (sel ++ [p.1])
    else parseLoopFuel fuel r.2 sel

/-- The top-level loop with sufficient fuel for its stream. -/
def parseLoop (toks : List (Token × String)) (sel : List Requirement) :
    LabelSelector × Option String :=
  parseLoopFuel (toks.length + 1) toks sel

/-- Parser.Parse from parser.go, starting from an empty selector. -/
def parserParse (toks : List (Token × String)) : LabelSelector × Option String :=
  parseLoop toks []

/-- Parse from parser.go: run the parser over the token stream of the input.
The pair returns the selector built so far together with the error, `none`
standing for Go's nil error. -/
def Parse (l : List Char) : LabelSelector × Option String :=
  parserParse (tokenize l)

/-- ParseString from parser.go. -/
def ParseString (s : String) : LabelSelector × Option String :=
  Parse s.toList

/-- The requirement produced for a bare identifier clause. -/
def existsRequirement (key : String) : Requirement :=
  { Key := key, Value := "", Values := [], Operation := .OperationExists }

/-- A character the top level treats as pure separation: a comma or
whitespace. -/
def isSepChar (c : Char) : Bool :=
  c = ',' || isWhitespace c

/-- A run of characters consisting only of commas and whitespace. -/
def sepOnly (s : List Char) : Bool :=
  s.all isSepChar

/-- A bare identifier in the sense of the grammar: a nonempty run of
identifier characters that the tokenizer does not turn into the NOT or IN
keyword. -/
def bareIdent (s : String) : Bool :=
  !s.toList.isEmpty && s.toList.all isValidIdentRune &&
    !(toUpperString s == "NOT") && !(toUpperString s == "IN")

/-- Interleaving of identifiers with their trailing separator runs:
`renderBare [(id1, sep1), ..., (idn, sepn)] = id1 ++ sep1 ++ ... ++ idn ++ sepn`. -/
def renderBare : List (String × List Char) → List Char
  | [] => []
  | p :: rest => p.1.toList ++ p.2 ++ renderBare rest

/-- The well-formedness condition for `renderBare` input: every identifier
is bare, every separator run holds only commas and whitespace, and every
separator standing between two identifiers contains at least one comma. -/
def bareChain : List (String × List Char) → Bool
  | [] => true
  | p :: rest => bareIdent p.1 && sepOnly p.2 && (rest.isEmpty || p.2.contains ',') && bareChain rest

/-- The non-whitespace portion of a token sequence — exactly the tokens
`Parser.next` ever hands to the parser. -/
def filterWS (toks : List (Token × String)) : List (Token × String) :=
  toks.filter (fun t => !(t.1 == Token.WS))

/-! ### Consumption lemmas for the lexer -/

theorem scanRun_suffix (p : Char → Bool) (l : List Char) : (scanRun p l).2 <:+ l := by
  induction l with
  | nil => simp [scanRun]
  | cons c rest ih =>
    simp only [scanRun]
    split_ifs with h1 h2
    · exact List.suffix_cons c rest
    · exact ih.trans (List.suffix_cons c rest)
    · exact List.suffix_rfl

theorem scanQuotedIdentAux_suffix (l : List Char) :
    ∀ last, (scanQuotedIdentAux l last).2 <:+ l := by
  induction l with
  | nil => intro last; simp [scanQuotedIdentAux]
  | cons c rest ih =>
    intro last
    simp only [scanQuotedIdentAux]
    split_ifs with h1
    · exact List.suffix_cons c rest
    · exact (ih c).trans (List.suffix_cons c rest)


theorem scanWhitespace_suffix (c : Char) (rest : List Char) :
    (scanWhitespace c rest).2.2 <:+ rest :=
  scanRun_suffix isWhitespace rest

theorem scanIdent_suffix (c : Char) (rest : List Char) :
    (scanIdent c rest).2.2 <:+ rest := by
  simp only [scanIdent]
  split_ifs <;> exact scanRun_suffix isValidIdentRune rest

theorem scanQuotedIdent_suffix (rest : List Char) :
    (scanQuotedIdent rest).2.2 <:+ rest :=
  scanQuotedIdentAux_suffix rest eofRune

theorem lexCompare_suffix (c : Char) (rest : List Char) :
    (lexCompare c rest).2.2 <:+ rest := by
  unfold lexCompare
  split_ifs <;> split
  · next rest2 heq => exact List.suffix_cons _ _
  · exact List.suffix_rfl
  · next rest2 heq => exact List.suffix_cons _ _
  · exact List.suffix_rfl

set_option maxHeartbeats 1000000 in
theorem lexNext_cons_suffix (c : Char) (rest : List Char) :
    (lexNext (c :: rest)).2.2 <:+ rest := by
  simp only [lexNext]
  split_ifs with h1 h2 h3 h4 h5 h6 h7 h8 h9 h10
  · exact scanWhitespace_suffix c rest
  · exact scanIdent_suffix c rest
  · exact scanQuotedIdent_suffix rest
  · exact List.suffix_rfl
  · split
    · next rest2 heq => exact List.suffix_cons _ _
    · exact List.suffix_rfl
  · split
    · next rest2 heq => exact List.suffix_cons _ _
    · exact List.suffix_rfl
  · exact List.suffix_rfl
  · exact List.suffix_rfl
  · exact List.suffix_rfl
  · exact lexCompare_suffix c rest
  · exact List.suffix_rfl

theorem lexNext_cons_length (c : Char) (rest : List Char) :
    (lexNext (c :: rest)).2.2.length < (c :: rest).length := by
  have h := (lexNext_cons_suffix c rest).length_le
  simp only [List.length_cons]
  omega

theorem lexNext_suffix (l : List Char) : (lexNext l).2.2 <:+ l := by
  match l with
  | [] => simp [lexNext]
  | c :: rest => exact (lexNext_cons_suffix c rest).trans (List.suffix_cons c rest)

/-! ### The tokenizer driver is fuel-insensitive once the fuel exceeds the
input length, giving clean unfolding equations for `tokenize`. -/

theorem tokenizeFuel_congr :
    ∀ f g l, l.length < f → l.length < g → tokenizeFuel f l = tokenizeFuel g l := by
  intro f
  induction f using Nat.strong_induction_on with
  | _ f ihf =>
    intro g l hf hg
    match f, g, l with
    | f + 1, g + 1, [] => rfl
    | f + 1, g + 1, c :: rest =>
      simp only [tokenizeFuel, List.cons.injEq, true_and]
      have hlen := lexNext_cons_length c rest
      exact ihf f (Nat.lt_succ_self f) g (lexNext (c :: rest)).2.2
        (by simp only [List.length_cons] at hf hlen ⊢; omega)
        (by simp only [List.length_cons] at hg hlen ⊢; omega)

theorem tokenize_nil : tokenize [] = [] := rfl

theorem tokenize_cons (c : Char) (rest : List Char) :
    tokenize (c :: rest) =
      ((lexNext (c :: rest)).1, (lexNext (c :: rest)).2.1) ::
        tokenize (lexNext (c :: rest)).2.2 := by
  show tokenizeFuel (rest.length + 1 + 1) (c :: rest) = _
  simp only [tokenizeFuel, List.cons.injEq, true_and]
  exact tokenizeFuel_congr _ _ _
    (by have := lexNext_cons_length c rest; simp only [List.length_cons] at this ⊢; omega)
    (Nat.lt_succ_self _)

/-! ### Basic facts about the parser's token cursor -/

theorem nextTok_nil : nextTok [] = ((Token.EOF, ""), []) := rfl

theorem nextTok_cons_ws (t : Token × String) (rest : List (Token × String))
    (h : t.1 = Token.WS) : nextTok (t :: rest) = nextTok rest := by
  simp [nextTok, h]

theorem nextTok_cons (t : Token × String) (rest : List (Token × String))
    (h : ¬ t.1 = Token.WS) : nextTok (t :: rest) = (t, rest) := by
  simp [nextTok, h]

theorem nextTok_suffix (toks : List (Token × String)) : (nextTok toks).2 <:+ toks := by
  induction toks with
  | nil => simp [nextTok]
  | cons t rest ih =>
    simp only [nextTok]
    split_ifs with h
    · exact ih.trans (List.suffix_cons t rest)
    · exact List.suffix_cons t rest

theorem nextTok_length_lt (toks : List (Token × String))
    (h : ¬ (nextTok toks).1.1 = Token.EOF) : (nextTok toks).2.length < toks.length := by
  induction toks with
  | nil => simp [nextTok] at h
  | cons t rest ih =>
    by_cases hws : t.1 = Token.WS
    · rw [nextTok_cons_ws t rest hws] at h ⊢
      have := ih h
      simp only [List.length_cons]
      omega
    · rw [nextTok_cons t rest hws]
      simp only [List.length_cons]
      omega

theorem nextTok_mem (toks : List (Token × String)) :
    (nextTok toks).1 ∈ toks ∨ (nextTok toks).1 = (Token.EOF, "") := by
  induction toks with
  | nil => simp [nextTok]
  | cons t rest ih =>
    by_cases hws : t.1 = Token.WS
    · rw [nextTok_cons_ws t rest hws]
      rcases ih with h | h
      · exact Or.inl (List.mem_cons_of_mem t h)
      · exact Or.inr h
    · rw [nextTok_cons t rest hws]
      exact Or.inl (List.mem_cons_self t rest)

/-! ### Frame lemmas for the sub-parsers: on success the remaining stream is
a suffix of the input stream, and the requirement's key is the given key. -/

theorem parseBinaryRequirement_ok {op : Operation} {msg key : String}
    {toks : List (Token × String)} {p : Requirement × List (Token × String)}
    (h : parseBinaryRequirement op msg key toks = .ok p) :
    p.2 <:+ toks ∧ p.1.Key = key := by
  simp only [parseBinaryRequirement] at h
  split_ifs at h with h1
  · injection h with h
    subst h
    exact ⟨nextTok_suffix toks, rfl⟩

theorem parseNotExistsRequirement_ok {toks : List (Token × String)}
    {p : Requirement × List (Token × String)}
    (h : parseNotExistsRequirement toks = .ok p) : p.2 <:+ toks := by
  simp only [parseNotExistsRequirement] at h
  split_ifs at h with h1
  · injection h with h
    subst h
    exact nextTok_suffix toks

theorem parseIdentListFuel_suffix :
    ∀ fuel toks p, parseIdentListFuel fuel toks = .ok p → p.2 <:+ toks := by
  intro fuel
  induction fuel with
  | zero =>
    intro toks p h
    injection h with h
    subst h
    exact List.suffix_rfl
  | succ fuel ih =>
    intro toks p h
    simp only [parseIdentListFuel] at h
    split_ifs at h with h1 h2 h3
    · injection h with h
      subst h
      exact nextTok_suffix toks
    · exact (ih _ p h).trans (nextTok_suffix toks)
    · revert h
      match hq : parseIdentListFuel fuel (nextTok toks).2 with
      | .ok q =>
        intro h
        injection h with h
        subst h
        exact (ih _ q hq).trans (nextTok_suffix toks)
      | .error e => intro h; exact absurd h (by simp)

theorem parseIdentListFuel_congr :
    ∀ f g toks, toks.length < f → toks.length < g →
      parseIdentListFuel f toks = parseIdentListFuel g toks := by
  intro f
  induction f using Nat.strong_induction_on with
  | _ f ihf =>
    intro g toks hf hg
    match f, g with
    | f + 1, g + 1 =>
      simp only [parseIdentListFuel]
      split_ifs with h1 h2 h3
      · rfl
      · have hlt : (nextTok toks).2.length < toks.length :=
          nextTok_length_lt toks (by simp [h2])
        exact ihf f (Nat.lt_succ_self f) g _ (by omega) (by omega)
      · have hlt : (nextTok toks).2.length < toks.length :=
          nextTok_length_lt toks (by simp [h3])
        rw [ihf f (Nat.lt_succ_self f) g _ (by omega) (by omega)]
      · rfl

theorem parseIdentList_suffix {toks : List (Token × String)}
    {p : List String × List (Token × String)}
    (h : parseIdentList toks = .ok p) : p.2 <:+ toks :=
  parseIdentListFuel_suffix _ toks p h

theorem parseInRequirement_ok {key : String} {toks : List (Token × String)}
    {p : Requirement × List (Token × String)}
    (h : parseInRequirement key toks = .ok p) :
    p.2 <:+ toks ∧ p.1.Key = key := by
  simp only [parseInRequirement] at h
  split_ifs at h with h1
  · revert h
    match hq : parseIdentList (nextTok toks).2 with
    | .ok q =>
      intro h
      injection h with h
      subst h
      exact ⟨(parseIdentList_suffix hq).trans (nextTok_suffix toks), rfl⟩
    | .error e => intro h; exact absurd h (by simp)

theorem parseNotInRequirement_ok {key : String} {toks : List (Token × String)}
    {p : Requirement × List (Token × String)}
    (h : parseNotInRequirement key toks = .ok p) :
    p.2 <:+ toks ∧ p.1.Key = key := by
  simp only [parseNotInRequirement] at h
  split_ifs at h with h1
  · revert h
    match hq : parseInRequirement key (nextTok toks).2 with
    | .ok q =>
      intro h
      injection h with h
      subst h
      have hq2 := parseInRequirement_ok hq
      exact ⟨hq2.1.trans (nextTok_suffix toks), hq2.2⟩
    | .error e => intro h; exact absurd h (by simp)

theorem parseIdentClause_ok {key : String} {toks : List (Token × String)}
    {p : Requirement × List (Token × String)}
    (h : parseIdentClause key toks = .ok p) :
    p.2 <:+ toks ∧ p.1.Key = key := by
  simp only [parseIdentClause, parseEqualRequirement, parseNotEqualRequirement,
    parseLowerThanRequirement, parseLowerThanEqualRequirement,
    parseGreaterThanRequirement, parseGreaterThanEqualRequirement] at h
  split_ifs at h with h1 h2 h3 h4 h5 h6 h7 h8 h9
  · have h0 := parseBinaryRequirement_ok h
    exact ⟨h0.1.trans (nextTok_suffix toks), h0.2⟩
  · have h0 := parseBinaryRequirement_ok h
    exact ⟨h0.1.trans (nextTok_suffix toks), h0.2⟩
  · have h0 := parseInRequirement_ok h
    exact ⟨h0.1.trans (nextTok_suffix toks), h0.2⟩
  · have h0 := parseBinaryRequirement_ok h
    exact ⟨h0.1.trans (nextTok_suffix toks), h0.2⟩
  · have h0 := parseBinaryRequirement_ok h
    exact ⟨h0.1.trans (nextTok_suffix toks), h0.2⟩
  · have h0 := parseBinaryRequirement_ok h
    exact ⟨h0.1.trans (nextTok_suffix toks), h0.2⟩
  · have h0 := parseBinaryRequirement_ok h
    exact ⟨h0.1.trans (nextTok_suffix toks), h0.2⟩
  · have h0 := parseNotInRequirement_ok h
    exact ⟨h0.1.trans (nextTok_suffix toks), h0.2⟩
  · injection h with h
    subst h
    exact ⟨nextTok_suffix toks, rfl⟩

/-! ### The parse loop is fuel-insensitive once the fuel exceeds the stream
length, giving clean one-step unfolding equations for `parseLoop`. -/

theorem parseLoopFuel_congr :
    ∀ f g toks sel, toks.length < f → toks.length < g →
      parseLoopFuel f toks sel = parseLoopFuel g toks sel := by
  intro f
  induction f using Nat.strong_induction_on with
  | _ f ihf =>
    intro g toks sel hf hg
    match f, g with
    | f + 1, g + 1 =>
      simp only [parseLoopFuel]
      split_ifs with h1 h2 h3 h4 h5
      · have hlt : (nextTok toks).2.length < toks.length :=
          nextTok_length_lt toks (by simp [h1])
        exact ihf f (Nat.lt_succ_self f) g _ sel (by omega) (by omega)
      · rfl
      · rfl
      · have hlt : (nextTok toks).2.length < toks.length :=
          nextTok_length_lt toks (by simp [h4])
        rcases hq : parseNotExistsRequirement (nextTok toks).2 with e | p
        · simp only [hq]
        · simp only [hq]
          have hple : p.2.length ≤ (nextTok toks).2.length :=
            (parseNotExistsRequirement_ok hq).length_le
          exact ihf f (Nat.lt_succ_self f) g _ _ (by omega) (by omega)
      · have hlt : (nextTok toks).2.length < toks.length :=
          nextTok_length_lt toks (by simp [h5])
        rcases hq : parseIdentClause (nextTok toks).1.2 (nextTok toks).2 with e | p
        · simp only [hq]
        · simp only [hq]
          have hple : p.2.length ≤ (nextTok toks).2.length :=
            (parseIdentClause_ok hq).1.length_le
          exact ihf f (Nat.lt_succ_self f) g _ _ (by omega) (by omega)
      · have hlt : (nextTok toks).2.length < toks.length :=
          nextTok_length_lt toks h2
        exact ihf f (Nat.lt_succ_self f) g _ sel (by omega) (by omega)

theorem parseLoop_comma {toks : List (Token × String)} (sel : List Requirement)
    (h : (nextTok toks).1.1 = Token.COMMA) :
    parseLoop toks sel = parseLoop (nextTok toks).2 sel := by
  have hlt : (nextTok toks).2.length < toks.length :=
    nextTok_length_lt toks (by simp [h])
  show parseLoopFuel (toks.length + 1) toks sel = _
  simp only [parseLoopFuel, h, if_pos]
  exact parseLoopFuel_congr _ _ _ _ (by omega) (Nat.lt_succ_self _)

theorem parseLoop_eof {toks : List (Token × String)} (sel : List Requirement)
    (h : (nextTok toks).1.1 = Token.EOF) :
    parseLoop toks sel = (⟨sel⟩, none) := by
  show parseLoopFuel (toks.length + 1) toks sel = _
  simp [parseLoopFuel, h]

theorem parseLoop_nil (sel : List Requirement) : parseLoop [] sel = (⟨sel⟩, none) :=
  parseLoop_eof sel (by simp [nextTok])

theorem parseLoop_illegal {toks : List (Token × String)} (sel : List Requirement)
    (h : (nextTok toks).1.1 = Token.ILLEGAL) :
    parseLoop toks sel = (⟨sel⟩, some "illegal token") := by
  show parseLoopFuel (toks.length + 1) toks sel = _
  simp [parseLoopFuel, h]

theorem parseLoop_excl {toks : List (Token × String)} (sel : List Requirement)
    (h : (nextTok toks).1.1 = Token.EXCLAMATION_MARK) :
    parseLoop toks sel =
      match parseNotExistsRequirement (nextTok toks).2 with
      | .error e => (⟨sel⟩, some e)
      | .ok p => parseLoop p.2 (sel ++ [p.1]) := by
  have hlt : (nextTok toks).2.length < toks.length :=
    nextTok_length_lt toks (by simp [h])
  show parseLoopFuel (toks.length + 1) toks sel = _
  simp only [parseLoopFuel, h]
  norm_num
  rcases hq : parseNotExistsRequirement (nextTok toks).2 with e | p
  · simp [hq]
  · simp only [hq]
    have hple : p.2.length ≤ (nextTok toks).2.length :=
      (parseNotExistsRequirement_ok hq).length_le
    exact parseLoopFuel_congr _ _ _ _ (by omega) (Nat.lt_succ_self _)

theorem parseLoop_ident {toks : List (Token × String)} (sel : List Requirement)
    (h : (nextTok toks).1.1 = Token.IDENT) :
    parseLoop toks sel =
      match parseIdentClause (nextTok toks).1.2 (nextTok toks).2 with
      | .error e => (⟨sel⟩, some e)
      | .ok p => parseLoop p.2 (sel ++ [p.1]) := by
  have hlt : (nextTok toks).2.length < toks.length :=
    nextTok_length_lt toks (by simp [h])
  show parseLoopFuel (toks.length + 1) toks sel = _
  simp only [parseLoopFuel, h]
  norm_num
  rcases hq : parseIdentClause (nextTok toks).1.2 (nextTok toks).2 with e | p
  · simp [hq]
  · simp only [hq]
    have hple : p.2.length ≤ (nextTok toks).2.length :=
      (parseIdentClause_ok hq).1.length_le
    exact parseLoopFuel_congr _ _ _ _ (by omega) (Nat.lt_succ_self _)

theorem parseLoop_other {toks : List (Token × String)} (sel : List Requirement)
    (h1 : ¬ (nextTok toks).1.1 = Token.COMMA) (h2 : ¬ (nextTok toks).1.1 = Token.EOF)
    (h3 : ¬ (nextTok toks).1.1 = Token.ILLEGAL)
    (h4 : ¬ (nextTok toks).1.1 = Token.EXCLAMATION_MARK)
    (h5 : ¬ (nextTok toks).1.1 = Token.IDENT) :
    parseLoop toks sel = parseLoop (nextTok toks).2 sel := by
  have hlt : (nextTok toks).2.length < toks.length := nextTok_length_lt toks h2
  show parseLoopFuel (toks.length + 1) toks sel = _
  simp only [parseLoopFuel, h1, h2, h3, h4, h5, if_neg, if_false]
  exact parseLoopFuel_congr _ _ _ _ (by omega) (Nat.lt_succ_self _)

/-! ### The parser reads the token stream only through `nextTok`, so the
whitespace tokens are semantically invisible: the whole pipeline gives the
same result on a stream and on its whitespace-free filtrate. -/

theorem filterWS_cons_ws (t : Token × String) (rest : List (Token × String))
    (h : t.1 = Token.WS) : filterWS (t :: rest) = filterWS rest := by
  simp [filterWS, List.filter_cons, h]

theorem filterWS_cons (t : Token × String) (rest : List (Token × String))
    (h : ¬ t.1 = Token.WS) : filterWS (t :: rest) = t :: filterWS rest := by
  simp [filterWS, List.filter_cons, h]

theorem nextTok_filterWS (toks : List (Token × String)) :
    nextTok (filterWS toks) = ((nextTok toks).1, filterWS (nextTok toks).2) := by
  induction toks with
  | nil => simp [filterWS, nextTok]
  | cons t rest ih =>
    by_cases hws : t.1 = Token.WS
    · rw [filterWS_cons_ws t rest hws, nextTok_cons_ws t rest hws, ih]
    · rw [filterWS_cons t rest hws, nextTok_cons t rest hws,
        nextTok_cons t (filterWS rest) hws]

theorem parseBinaryRequirement_filterWS (op : Operation) (msg key : String)
    (toks : List (Token × String)) :
    parseBinaryRequirement op msg key (filterWS toks) =
      (parseBinaryRequirement op msg key toks).map (fun p => (p.1, filterWS p.2)) := by
  simp only [parseBinaryRequirement, nextTok_filterWS]
  split_ifs with h <;> simp [Except.map]

theorem parseNotExistsRequirement_filterWS (toks : List (Token × String)) :
    parseNotExistsRequirement (filterWS toks) =
      (parseNotExistsRequirement toks).map (fun p => (p.1, filterWS p.2)) := by
  simp only [parseNotExistsRequirement, nextTok_filterWS]
  split_ifs with h <;> simp [Except.map]

theorem parseIdentListFuel_filterWS :
    ∀ fuel toks, parseIdentListFuel fuel (filterWS toks) =
      (parseIdentListFuel fuel toks).map (fun p => (p.1, filterWS p.2)) := by
  intro fuel
  induction fuel with
  | zero => intro toks; simp [parseIdentListFuel, Except.map]
  | succ fuel ih =>
    intro toks
    simp only [parseIdentListFuel, nextTok_filterWS]
    split_ifs with h1 h2 h3
    · simp [Except.map]
    · exact ih (nextTok toks).2
    · rw [ih (nextTok toks).2]
      rcases hq : parseIdentListFuel fuel (nextTok toks).2 with e | q <;> simp [Except.map]
    · simp [Except.map]

theorem parseIdentList_filterWS (toks : List (Token × String)) :
    parseIdentList (filterWS toks) =
      (parseIdentList toks).map (fun p => (p.1, filterWS p.2)) := by
  show parseIdentListFuel ((filterWS toks).length + 1) (filterWS toks) = _
  rw [parseIdentListFuel_congr ((filterWS toks).length + 1) (toks.length + 1) (filterWS toks)
    (Nat.lt_succ_self _)
    (by have := List.length_filter_le (fun t => !(t.1 == Token.WS)) toks
        simp only [filterWS]; omega)]
  exact parseIdentListFuel_filterWS (toks.length + 1) toks

theorem parseInRequirement_filterWS (key : String) (toks : List (Token × String)) :
    parseInRequirement key (filterWS toks) =
      (parseInRequirement key toks).map (fun p => (p.1, filterWS p.2)) := by
  simp only [parseInRequirement, nextTok_filterWS]
  split_ifs with h
  · rw [parseIdentList_filterWS]
    rcases hq : parseIdentList (nextTok toks).2 with e | q <;> simp [Except.map]
  · simp [Except.map]

theorem parseNotInRequirement_filterWS (key : String) (toks : List (Token × String)) :
    parseNotInRequirement key (filterWS toks) =
      (parseNotInRequirement key toks).map (fun p => (p.1, filterWS p.2)) := by
  simp only [parseNotInRequirement, nextTok_filterWS]
  split_ifs with h
  · rw [parseInRequirement_filterWS]
    rcases hq : parseInRequirement key (nextTok toks).2 with e | q <;> simp [Except.map]
  · simp [Except.map]

set_option maxHeartbeats 1600000 in
theorem parseIdentClause_filterWS (key : String) (toks : List (Token × String)) :
    parseIdentClause key (filterWS toks) =
      (parseIdentClause key toks).map (fun p => (p.1, filterWS p.2)) := by
  simp only [parseIdentClause, nextTok_filterWS, parseEqualRequirement,
    parseNotEqualRequirement, parseLowerThanRequirement, parseLowerThanEqualRequirement,
    parseGreaterThanRequirement, parseGreaterThanEqualRequirement]
  split_ifs with h1 h2 h3 h4 h5 h6 h7 h8 h9
  · exact parseBinaryRequirement_filterWS _ _ key (nextTok toks).2
  · exact parseBinaryRequirement_filterWS _ _ key (nextTok toks).2
  · exact parseInRequirement_filterWS key (nextTok toks).2
  · exact parseBinaryRequirement_filterWS _ _ key (nextTok toks).2
  · exact parseBinaryRequirement_filterWS _ _ key (nextTok toks).2
  · exact parseBinaryRequirement_filterWS _ _ key (nextTok toks).2
  · exact parseBinaryRequirement_filterWS _ _ key (nextTok toks).2
  · exact parseNotInRequirement_filterWS key (nextTok toks).2
  · simp [Except.map]
  · simp [Except.map]

theorem parseLoopFuel_filterWS :
    ∀ fuel toks sel, parseLoopFuel fuel (filterWS toks) sel = parseLoopFuel fuel toks sel := by
  intro fuel
  induction fuel with
  | zero => intro toks sel; rfl
  | succ fuel ih =>
    intro toks sel
    simp only [parseLoopFuel, nextTok_filterWS]
    split_ifs with h1 h2 h3 h4 h5
    · exact ih (nextTok toks).2 sel
    · rfl
    · rfl
    · rw [parseNotExistsRequirement_filterWS]
      rcases hq : parseNotExistsRequirement (nextTok toks).2 with e | p
      · simp [Except.map]
      · simp only [hq, Except.map]
        exact ih p.2 (sel ++ [p.1])
    · rw [parseIdentClause_filterWS]
      rcases hq : parseIdentClause (nextTok toks).1.2 (nextTok toks).2 with e | p
      · simp [Except.map]
      · simp only [hq, Except.map]
        exact ih p.2 (sel ++ [p.1])
    · exact ih (nextTok toks).2 sel

theorem parseLoop_filterWS (toks : List (Token × String)) (sel : List Requirement) :
    parseLoop (filterWS toks) sel = parseLoop toks sel := by
  show parseLoopFuel ((filterWS toks).length + 1) (filterWS toks) sel = _
  rw [parseLoopFuel_congr ((filterWS toks).length + 1) (toks.length + 1) (filterWS toks) sel
    (Nat.lt_succ_self _)
    (by have := List.length_filter_le (fun t => !(t.1 == Token.WS)) toks
        simp only [filterWS]; omega)]
  exact parseLoopFuel_filterWS (toks.length + 1) toks sel

/-! ### Character-class facts and compositional lexing lemmas -/

theorem ident_not_ws {c : Char} (h : isValidIdentRune c = true) :
    isWhitespace c = false := by
  by_contra hws
  rw [Bool.not_eq_false] at hws
  simp only [isWhitespace, Bool.or_eq_true, decide_eq_true_eq] at hws
  rcases hws with (h1 | h1) | h1 <;> subst h1 <;> exact absurd h (by decide)

theorem ident_ne_eof {c : Char} (h : isValidIdentRune c = true) : ¬ c = eofRune := by
  intro he
  subst he
  exact absurd h (by decide)

theorem ws_ne_eof {c : Char} (h : isWhitespace c = true) : ¬ c = eofRune := by
  intro he
  subst he
  exact absurd h (by decide)

theorem sepChar_not_ident {c : Char} (h : isSepChar c = true) :
    isValidIdentRune c = false := by
  simp only [isSepChar, Bool.or_eq_true, decide_eq_true_eq] at h
  rcases h with h1 | h1
  · subst h1; decide
  · by_contra hi
    rw [Bool.not_eq_false] at hi
    rw [ident_not_ws hi] at h1
    exact Bool.false_ne_true h1

theorem sepChar_ne_eof {c : Char} (h : isSepChar c = true) : ¬ c = eofRune := by
  simp only [isSepChar, Bool.or_eq_true, decide_eq_true_eq] at h
  rcases h with h1 | h1
  · subst h1; decide
  · exact ws_ne_eof h1

theorem scanRun_append (p : Char → Bool) (a tail : List Char)
    (ha : ∀ c ∈ a, p c = true ∧ ¬ c = eofRune)
    (htail : ∀ c cs, tail = c :: cs → p c = false ∧ ¬ c = eofRune) :
    scanRun p (a ++ tail) = (a, tail) := by
  induction a with
  | nil =>
    simp only [List.nil_append]
    match tail with
    | [] => rfl
    | c :: cs =>
      obtain ⟨hp, he⟩ := htail c cs rfl
      simp [scanRun, he, hp]
  | cons x a ih =>
    obtain ⟨hp, he⟩ := ha x (List.mem_cons_self x a)
    simp only [List.cons_append, scanRun, he, hp, if_false, if_true, List.append_eq]
    rw [ih (fun c hc => ha c (List.mem_cons_of_mem x hc))]

theorem lexNext_comma (rest : List Char) : lexNext (',' :: rest) = (Token.COMMA, ",", rest) := rfl

theorem dropWhile_head_false (p : Char → Bool) :
    ∀ (l : List Char) c cs, l.dropWhile p = c :: cs → p c = false := by
  intro l
  induction l with
  | nil => intro c cs h; simp [List.dropWhile] at h
  | cons x xs ih =>
    intro c cs h
    rw [List.dropWhile_cons] at h
    split_ifs at h with hx
    · exact ih c cs h
    · injection h with h1 h2
      subst h1
      exact Bool.not_eq_true _ ▸ (by simpa using hx)

theorem lexNext_ident_append (s : String) (tail : List Char)
    (hne : ¬ s.toList = [])
    (hid : ∀ c ∈ s.toList, isValidIdentRune c = true)
    (htail : ∀ c cs, tail = c :: cs → isValidIdentRune c = false ∧ ¬ c = eofRune) :
    lexNext (s.toList ++ tail) =
      (if toUpperString s = "NOT" then Token.NOT
       else if toUpperString s = "IN" then Token.IN else Token.IDENT, s, tail) := by
  match hs : s.toList with
  | [] => exact absurd hs hne
  | c :: cs =>
    have hmk : String.mk (c :: cs) = s := by rw [← hs]; rfl
    have hc : isValidIdentRune c = true := hid c (by rw [hs]; exact List.mem_cons_self c cs)
    have hws : isWhitespace c = false := ident_not_ws hc
    have hrun : scanRun isValidIdentRune (cs ++ tail) = (cs, tail) := by
      refine scanRun_append _ cs tail (fun x hx => ?_) htail
      have hxid := hid x (by rw [hs]; exact List.mem_cons_of_mem c hx)
      exact ⟨hxid, ident_ne_eof hxid⟩
    simp only [List.cons_append, lexNext, hws, hc, Bool.false_eq_true, if_false, if_true,
      scanIdent, hrun, hmk]
    split_ifs <;> rfl

theorem tokenize_ne_nil (l : List Char) (h : ¬ l = []) :
    tokenize l = ((lexNext l).1, (lexNext l).2.1) :: tokenize (lexNext l).2.2 := by
  match l with
  | [] => exact absurd rfl h
  | c :: rest => exact tokenize_cons c rest

/-! ### The top-level loop sees separators (commas and whitespace) as pure
noise before a clause: they are consumed without changing the selector. -/

theorem parseLoop_congr_nextTok {toks1 toks2 : List (Token × String)}
    (sel : List Requirement) (h : nextTok toks1 = nextTok toks2) :
    parseLoop toks1 sel = parseLoop toks2 sel := by
  by_cases h1 : (nextTok toks1).1.1 = Token.COMMA
  · have h1b : (nextTok toks2).1.1 = Token.COMMA := by rw [← h]; exact h1
    rw [parseLoop_comma sel h1, parseLoop_comma sel h1b, h]
  by_cases h2 : (nextTok toks1).1.1 = Token.EOF
  · have h2b : (nextTok toks2).1.1 = Token.EOF := by rw [← h]; exact h2
    rw [parseLoop_eof sel h2, parseLoop_eof sel h2b]
  by_cases h3 : (nextTok toks1).1.1 = Token.ILLEGAL
  · have h3b : (nextTok toks2).1.1 = Token.ILLEGAL := by rw [← h]; exact h3
    rw [parseLoop_illegal sel h3, parseLoop_illegal sel h3b]
  by_cases h4 : (nextTok toks1).1.1 = Token.EXCLAMATION_MARK
  · have h4b : (nextTok toks2).1.1 = Token.EXCLAMATION_MARK := by rw [← h]; exact h4
    rw [parseLoop_excl sel h4, parseLoop_excl sel h4b, h]
  by_cases h5 : (nextTok toks1).1.1 = Token.IDENT
  · have h5b : (nextTok toks2).1.1 = Token.IDENT := by rw [← h]; exact h5
    rw [parseLoop_ident sel h5, parseLoop_ident sel h5b, h]
  · have h1b : ¬ (nextTok toks2).1.1 = Token.COMMA := by rw [← h]; exact h1
    have h2b : ¬ (nextTok toks2).1.1 = Token.EOF := by rw [← h]; exact h2
    have h3b : ¬ (nextTok toks2).1.1 = Token.ILLEGAL := by rw [← h]; exact h3
    have h4b : ¬ (nextTok toks2).1.1 = Token.EXCLAMATION_MARK := by rw [← h]; exact h4
    have h5b : ¬ (nextTok toks2).1.1 = Token.IDENT := by rw [← h]; exact h5
    rw [parseLoop_other sel h1 h2 h3 h4 h5, parseLoop_other sel h1b h2b h3b h4b h5b, h]

theorem parseLoop_cons_ws (t : Token × String) (rest : List (Token × String))
    (sel : List Requirement) (h : t.1 = Token.WS) :
    parseLoop (t :: rest) sel = parseLoop rest sel :=
  parseLoop_congr_nextTok sel (nextTok_cons_ws t rest h)

theorem sepOnly_spec {sep : List Char} (h : sepOnly sep = true) :
    ∀ c ∈ sep, isSepChar c = true := by
  simpa [sepOnly, List.all_eq_true] using h

theorem sep_comma_split (sep : List Char) (hsep : sepOnly sep = true) (hc : ',' ∈ sep) :
    ∃ w d, sep = w ++ ',' :: d ∧ (∀ c ∈ w, isWhitespace c = true) ∧ sepOnly d = true := by
  induction sep with
  | nil => simp at hc
  | cons c sep ih =>
    have hcsep : isSepChar c = true := sepOnly_spec hsep c (List.mem_cons_self c sep)
    have hsep2 : sepOnly sep = true := by
      simp only [sepOnly, List.all_eq_true] at hsep ⊢
      exact fun x hx => hsep x (List.mem_cons_of_mem c hx)
    by_cases hcc : c = ','
    · subst hcc
      exact ⟨[], sep, rfl, by simp, hsep2⟩
    · have hcw : isWhitespace c = true := by
        simp only [isSepChar, Bool.or_eq_true, decide_eq_true_eq] at hcsep
        rcases hcsep with h1 | h1
        · exact absurd h1 hcc
        · exact h1
      have hcmem : ',' ∈ sep := by
        rcases List.mem_cons.mp hc with h1 | h1
        · exact absurd h1.symm hcc
        · exact h1
      obtain ⟨w, d, hwd, hw, hd⟩ := ih hsep2 hcmem
      exact ⟨c :: w, d, by rw [hwd]; rfl,
        fun x hx => by
          rcases List.mem_cons.mp hx with h1 | h1
          · subst h1; exact hcw
          · exact hw x h1, hd⟩

theorem tokenize_ws_cons (wc : Char) (w tail : List Char)
    (hwc : isWhitespace wc = true)
    (hw : ∀ c ∈ w, isWhitespace c = true)
    (htail : ∀ c cs, tail = c :: cs → isWhitespace c = false ∧ ¬ c = eofRune) :
    tokenize (wc :: (w ++ tail)) = (Token.WS, String.mk (wc :: w)) :: tokenize tail := by
  have hrun : scanRun isWhitespace (w ++ tail) = (w, tail) :=
    scanRun_append _ w tail (fun c hc => ⟨hw c hc, ws_ne_eof (hw c hc)⟩) htail
  rw [tokenize_cons]
  simp only [lexNext, hwc, if_true, scanWhitespace, hrun]

theorem tokenize_comma_cons (rest : List Char) :
    tokenize (',' :: rest) = (Token.COMMA, ",") :: tokenize rest := by
  rw [tokenize_cons]
  simp only [lexNext_comma]

theorem nextTok_tokenize_sep_comma (sep l : List Char)
    (hsep : sepOnly sep = true) (hc : ',' ∈ sep) :
    ∃ d, sepOnly d = true ∧ d.length ≤ sep.length ∧
      nextTok (tokenize (sep ++ l)) = ((Token.COMMA, ","), tokenize (d ++ l)) := by
  obtain ⟨w, d, hwd, hw, hd⟩ := sep_comma_split sep hsep hc
  refine ⟨d, hd, by rw [hwd]; simp only [List.length_append, List.length_cons]; omega, ?_⟩
  subst hwd
  match w with
  | [] =>
    rw [List.nil_append, List.cons_append, tokenize_comma_cons]
    exact nextTok_cons _ _ (by simp)
  | wc :: w2 =>
    have : (wc :: w2 ++ ',' :: d) ++ l = wc :: (w2 ++ (',' :: (d ++ l))) := by simp
    rw [this, tokenize_ws_cons wc w2 (',' :: (d ++ l))
      (hw wc (List.mem_cons_self wc w2))
      (fun c hc2 => hw c (List.mem_cons_of_mem wc hc2))
      (fun c cs hcc => by injection hcc with h1 h2; subst h1; exact ⟨by decide, by decide⟩),
      tokenize_comma_cons]
    rw [nextTok_cons_ws _ _ rfl]
    exact nextTok_cons _ _ (by simp)

theorem nextTok_tokenize_sep_noComma (sep : List Char)
    (hsep : sepOnly sep = true) (hnc : ¬ ',' ∈ sep) :
    nextTok (tokenize sep) = ((Token.EOF, ""), []) := by
  match sep with
  | [] => rfl
  | c :: sep2 =>
    have hall : ∀ x ∈ c :: sep2, isWhitespace x = true := by
      intro x hx
      have hxs := sepOnly_spec hsep x hx
      simp only [isSepChar, Bool.or_eq_true, decide_eq_true_eq] at hxs
      rcases hxs with h1 | h1
      · exact absurd (h1 ▸ hx) hnc
      · exact h1
    have : tokenize (c :: (sep2 ++ [])) = (Token.WS, String.mk (c :: sep2)) :: tokenize [] :=
      tokenize_ws_cons c sep2 [] (hall c (List.mem_cons_self c sep2))
        (fun x hx => hall x (List.mem_cons_of_mem c hx))
        (fun x xs hxx => by simp at hxx)
    rw [List.append_nil] at this
    rw [this, nextTok_cons_ws _ _ rfl]
    rfl

theorem parseLoop_sep :
    ∀ (n : Nat) (sep l : List Char) (sel : List Requirement), sep.length ≤ n →
      sepOnly sep = true →
      (∀ c cs, l = c :: cs → isValidIdentRune c = true) →
      parseLoop (tokenize (sep ++ l)) sel = parseLoop (tokenize l) sel := by
  intro n
  induction n with
  | zero =>
    intro sep l sel hlen hsep hl
    have : sep = [] := List.eq_nil_of_length_eq_zero (Nat.le_zero.mp hlen)
    rw [this, List.nil_append]
  | succ n ih =>
    intro sep l sel hlen hsep hl
    match sep with
    | [] => rw [List.nil_append]
    | c :: sep2 =>
      have hcsep : isSepChar c = true := sepOnly_spec hsep c (List.mem_cons_self c sep2)
      have hsep2 : sepOnly sep2 = true := by
        simp only [sepOnly, List.all_eq_true] at hsep ⊢
        exact fun x hx => hsep x (List.mem_cons_of_mem c hx)
      by_cases hcc : c = ','
      · subst hcc
        rw [List.cons_append, tokenize_comma_cons]
        rw [parseLoop_comma sel (by rw [nextTok_cons _ _ (by simp)])]
        rw [nextTok_cons _ _ (by simp)]
        exact ih sep2 l sel (by simpa using hlen) hsep2 hl
      · have hcw : isWhitespace c = true := by
          simp only [isSepChar, Bool.or_eq_true, decide_eq_true_eq] at hcsep
          rcases hcsep with h1 | h1
          · exact absurd h1 hcc
          · exact h1
        have hsplit : sep2 = sep2.takeWhile isWhitespace ++ sep2.dropWhile isWhitespace :=
          (List.takeWhile_append_dropWhile isWhitespace sep2).symm
        have htk : ∀ x ∈ sep2.takeWhile isWhitespace, isWhitespace x = true := by
          intro x hx
          exact List.mem_takeWhile_imp hx
        have hdsuf : sep2.dropWhile isWhitespace <:+ sep2 := List.dropWhile_suffix _
        have hdsep : sepOnly (sep2.dropWhile isWhitespace) = true := by
          simp only [sepOnly, List.all_eq_true] at hsep2 ⊢
          exact fun x hx => hsep2 x (hdsuf.subset hx)
        have htail : ∀ x xs, sep2.dropWhile isWhitespace ++ l = x :: xs →
            isWhitespace x = false ∧ ¬ x = eofRune := by
          intro x xs hxx
          match hd : sep2.dropWhile isWhitespace with
          | [] =>
            rw [hd, List.nil_append] at hxx
            have hxi := hl x xs hxx
            exact ⟨ident_not_ws hxi, ident_ne_eof hxi⟩
          | y :: ys =>
            rw [hd, List.cons_append] at hxx
            injection hxx with h1 h2
            rw [← h1]
            have hyw : isWhitespace y = false := dropWhile_head_false _ sep2 y ys hd
            have hys : isSepChar y = true :=
              sepOnly_spec hsep2 y (hdsuf.subset (by rw [hd]; exact List.mem_cons_self y ys))
            exact ⟨hyw, sepChar_ne_eof hys⟩
        have heq : (c :: sep2) ++ l =
            c :: (sep2.takeWhile isWhitespace ++ (sep2.dropWhile isWhitespace ++ l)) := by
          rw [List.cons_append]
          congr 1
          rw [← List.append_assoc, ← hsplit]
        rw [heq, tokenize_ws_cons c (sep2.takeWhile isWhitespace)
          (sep2.dropWhile isWhitespace ++ l) hcw htk htail]
        rw [parseLoop_cons_ws _ _ sel rfl]
        have hdlen : (sep2.dropWhile isWhitespace).length ≤ n := by
          have := hdsuf.length_le
          simp only [List.length_cons] at hlen
          omega
        exact ih (sep2.dropWhile isWhitespace) l sel hdlen hdsep hl

theorem parseIdentClause_comma_eof (key : String) (toks : List (Token × String))
    (h : (nextTok toks).1.1 = Token.COMMA ∨ (nextTok toks).1.1 = Token.EOF) :
    parseIdentClause key toks = .ok (existsRequirement key, (nextTok toks).2) := by
  rcases h with h | h <;> simp [parseIdentClause, existsRequirement, h]

theorem bareIdent_spec {s : String} (h : bareIdent s = true) :
    ¬ s.toList = [] ∧ (∀ c ∈ s.toList, isValidIdentRune c = true) ∧
      ¬ toUpperString s = "NOT" ∧ ¬ toUpperString s = "IN" := by
  simp only [bareIdent, Bool.and_eq_true, Bool.not_eq_true', List.all_eq_true,
    beq_eq_false_iff_ne, ne_eq] at h
  obtain ⟨⟨⟨h1, h2⟩, h3⟩, h4⟩ := h
  refine ⟨?_, h2, h3, h4⟩
  intro hnil
  rw [hnil] at h1
  simp at h1

theorem parseLoop_bareChain :
    ∀ (pairs : List (String × List Char)) (sel : List Requirement),
      bareChain pairs = true →
      parseLoop (tokenize (renderBare pairs)) sel =
        (⟨sel ++ pairs.map (fun p => existsRequirement p.1)⟩, none) := by
  intro pairs
  induction pairs with
  | nil => intro sel h; simp [renderBare, tokenize_nil, parseLoop_nil]
  | cons p rest ih =>
    intro sel hchain
    obtain ⟨id, sep⟩ := p
    simp only [bareChain, Bool.and_eq_true, Bool.or_eq_true] at hchain
    obtain ⟨⟨⟨hid, hsep⟩, hcomma⟩, hrest⟩ := hchain
    obtain ⟨hne, hidc, hNOT, hIN⟩ := bareIdent_spec hid
    have htail : ∀ c cs, sep ++ renderBare rest = c :: cs →
        isValidIdentRune c = false ∧ ¬ c = eofRune := by
      intro c cs hcc
      match hsep0 : sep with
      | c0 :: sep2 =>
        injection hcc with hc1 hc2
        rw [← hc1]
        have hc0 : isSepChar c0 = true :=
          sepOnly_spec hsep c0 (List.mem_cons_self c0 sep2)
        exact ⟨sepChar_not_ident hc0, sepChar_ne_eof hc0⟩
      | [] =>
        rcases hcomma with hre | hrc
        · have hrn : rest = [] := by
            cases rest with
            | nil => rfl
            | cons q qs => simp at hre
          rw [List.nil_append, hrn] at hcc
          simp [renderBare] at hcc
        · simp [List.contains] at hrc
    have hlex : lexNext (id.toList ++ (sep ++ renderBare rest)) =
        (Token.IDENT, id, sep ++ renderBare rest) := by
      rw [lexNext_ident_append id _ hne hidc htail, if_neg hNOT, if_neg hIN]
    have hne2 : ¬ id.toList ++ (sep ++ renderBare rest) = [] := by
      intro hz
      exact hne (List.append_eq_nil.mp hz).1
    have htok : tokenize (renderBare ((id, sep) :: rest)) =
        (Token.IDENT, id) :: tokenize (sep ++ renderBare rest) := by
      simp only [renderBare]
      rw [List.append_assoc, tokenize_ne_nil _ hne2, hlex]
    rw [htok]
    have hnext : nextTok ((Token.IDENT, id) :: tokenize (sep ++ renderBare rest)) =
        ((Token.IDENT, id), tokenize (sep ++ renderBare rest)) :=
      nextTok_cons _ _ (by simp)
    rw [parseLoop_ident sel (by rw [hnext])]
    simp only [hnext]
    match rest with
    | [] =>
      by_cases hcm : ',' ∈ sep
      · obtain ⟨d, hd, hdlen, hnt⟩ :=
          nextTok_tokenize_sep_comma sep (renderBare []) hsep hcm
        rw [parseIdentClause_comma_eof id _ (Or.inl (by rw [hnt]))]
        simp only [hnt]
        rw [parseLoop_sep d.length d (renderBare []) (sel ++ [existsRequirement id])
          (Nat.le_refl _) hd (fun c cs hcc => by simp [renderBare] at hcc)]
        simp [renderBare, tokenize_nil, parseLoop_nil]
      · have hnt : nextTok (tokenize (sep ++ renderBare [])) = ((Token.EOF, ""), []) := by
          simp only [renderBare, List.append_nil]
          exact nextTok_tokenize_sep_noComma sep hsep hcm
        rw [parseIdentClause_comma_eof id _ (Or.inr (by rw [hnt]))]
        simp only [hnt]
        rw [parseLoop_nil]
        simp
    | p2 :: rest2 =>
      have hcm : ',' ∈ sep := by
        rcases hcomma with hre | hrc
        · simp at hre
        · simpa [List.contains] using hrc
      obtain ⟨d, hd, hdlen, hnt⟩ :=
        nextTok_tokenize_sep_comma sep (renderBare (p2 :: rest2)) hsep hcm
      rw [parseIdentClause_comma_eof id _ (Or.inl (by rw [hnt]))]
      simp only [hnt]
      have hid2 : bareIdent p2.1 = true := by
        simp only [bareChain, Bool.and_eq_true] at hrest
        exact hrest.1.1.1
      obtain ⟨hne2b, hidc2, _, _⟩ := bareIdent_spec hid2
      have hlhead : ∀ c cs, renderBare (p2 :: rest2) = c :: cs →
          isValidIdentRune c = true := by
        intro c cs hcc
        simp only [renderBare] at hcc
        match hp2 : p2.1.toList with
        | [] => exact absurd hp2 hne2b
        | c0 :: cs0 =>
          rw [hp2, List.cons_append] at hcc
          injection hcc with hc1 hc2
          rw [← hc1]
          exact hidc2 c0 (by rw [hp2]; exact List.mem_cons_self c0 cs0)
      rw [parseLoop_sep d.length d (renderBare (p2 :: rest2))
        (sel ++ [existsRequirement id]) (Nat.le_refl _) hd hlhead]
      rw [ih (sel ++ [existsRequirement id]) hrest]
      simp

/-! ### Structure of quoted-identifier scanning -/

theorem scanQuotedIdentAux_no_quote (s : List Char)
    (hs : ∀ c ∈ s, ¬ c = '"' ∧ ¬ c = eofRune) :
    ∀ last, scanQuotedIdentAux s last = (s, []) := by
  induction s with
  | nil => intro last; rfl
  | cons c s2 ih =>
    intro last
    obtain ⟨hq, he⟩ := hs c (List.mem_cons_self c s2)
    simp only [scanQuotedIdentAux, he, hq, false_and, or_self, if_false, ite_false]
    rw [ih (fun x hx => hs x (List.mem_cons_of_mem c hx)) c]

theorem scanQuotedIdentAux_terminated (s : List Char) (r : List Char)
    (hs : ∀ c ∈ s, ¬ c = '"' ∧ ¬ c = eofRune)
    (hlast : ¬ s.getLast? = some '\\') :
    ∀ last, (s = [] → ¬ last = '\\') →
      scanQuotedIdentAux (s ++ '"' :: r) last = (s, r) := by
  induction s with
  | nil =>
    intro last hl
    have hl2 : ¬ last = '\\' := hl rfl
    simp [scanQuotedIdentAux, hl2]
  | cons c s2 ih =>
    intro last hl
    obtain ⟨hq, he⟩ := hs c (List.mem_cons_self c s2)
    simp only [List.cons_append, scanQuotedIdentAux, he, hq, false_and, or_self,
      if_false, ite_false, List.append_eq]
    have hs2 : ∀ x ∈ s2, ¬ x = '"' ∧ ¬ x = eofRune :=
      fun x hx => hs x (List.mem_cons_of_mem c hx)
    have hlast2 : ¬ s2.getLast? = some '\\' := by
      cases s2 with
      | nil => simp
      | cons y ys => rw [← List.getLast?_cons_cons]; exact hlast
    have hcne : s2 = [] → ¬ c = '\\' := by
      intro h2
      subst h2
      simp only [List.getLast?_singleton] at hlast
      intro hcc
      exact hlast (by rw [hcc])
    rw [ih hs2 hlast2 c hcne]

theorem scanQuotedIdentAux_escape (s : List Char) (r : List Char)
    (hs : ∀ c ∈ s, ¬ c = '"' ∧ ¬ c = eofRune) :
    ∀ last, scanQuotedIdentAux (s ++ '\\' :: '"' :: r) last =
      (s ++ '\\' :: '"' :: (scanQuotedIdentAux r '"').1, (scanQuotedIdentAux r '"').2) := by
  induction s with
  | nil =>
    intro last
    simp only [List.nil_append]
    have h1 : ¬ ('\\' : Char) = eofRune := by decide
    have h2 : ¬ ('\\' : Char) = '"' := by decide
    simp only [scanQuotedIdentAux, h1, h2, false_and, or_self, if_false, ite_false]
    have h3 : ¬ ('"' : Char) = eofRune := by decide
    have h4 : ('"' : Char) = '"' := rfl
    simp [scanQuotedIdentAux, h3, h4]
  | cons c s2 ih =>
    intro last
    obtain ⟨hq, he⟩ := hs c (List.mem_cons_self c s2)
    simp only [List.cons_append, scanQuotedIdentAux, he, hq, false_and, or_self,
      if_false, ite_false, List.append_eq]
    rw [ih (fun x hx => hs x (List.mem_cons_of_mem c hx)) c]

theorem scanQuotedIdentAux_last_irrel (r : List Char) (last1 last2 : Char)
    (h1 : ¬ last1 = '\\') (h2 : ¬ last2 = '\\') :
    scanQuotedIdentAux r last1 = scanQuotedIdentAux r last2 := by
  cases r with
  | nil => rfl
  | cons c rest =>
    by_cases he : c = eofRune
    · simp [scanQuotedIdentAux, he]
    · by_cases hqq : c = '"'
      · simp [scanQuotedIdentAux, he, hqq, h1, h2]
      · simp [scanQuotedIdentAux, he, hqq]

/-! ### Keys of parsed requirements come from identifier literals -/

theorem mk_cons_ne_empty (c : Char) (xs : List Char) : ¬ String.mk (c :: xs) = "" := by
  intro h
  have h2 : (String.mk (c :: xs)).data = ("" : String).data := congrArg String.data h
  simp at h2

set_option maxHeartbeats 1600000 in
theorem lexNext_ident_lit (c : Char) (rest : List Char) (hq : ¬ c = '"')
    (h : (lexNext (c :: rest)).1 = Token.IDENT) :
    ¬ (lexNext (c :: rest)).2.1 = "" := by
  revert h
  simp only [lexNext]
  split_ifs
  all_goals first
    | (intro h; exact absurd h (by simp [scanWhitespace]))
    | (intro h; simp only [scanIdent]; split_ifs <;> exact mk_cons_ne_empty c _)
    | (intro h; exfalso; revert h; unfold lexCompare; split_ifs <;> split <;> simp)
    | (split <;> (intro h; exact absurd h (by simp)))

theorem tokenize_ident_nonempty :
    ∀ (n : Nat) (l : List Char), l.length ≤ n → (∀ c ∈ l, ¬ c = '"') →
      ∀ t ∈ tokenize l, t.1 = Token.IDENT → ¬ t.2 = "" := by
  intro n
  induction n with
  | zero =>
    intro l hlen hq t ht
    have : l = [] := List.eq_nil_of_length_eq_zero (Nat.le_zero.mp hlen)
    subst this
    simp [tokenize_nil] at ht
  | succ n ih =>
    intro l hlen hq t ht hid
    match l with
    | [] => simp [tokenize_nil] at ht
    | c :: rest =>
      rw [tokenize_cons] at ht
      rcases List.mem_cons.mp ht with h | h
      · subst h
        exact lexNext_ident_lit c rest (hq c (List.mem_cons_self c rest)) hid
      · have hsub : ∀ x ∈ (lexNext (c :: rest)).2.2, ¬ x = '"' :=
          fun x hx => hq x ((lexNext_suffix (c :: rest)).subset hx)
        have hlen2 : (lexNext (c :: rest)).2.2.length ≤ n := by
          have := lexNext_cons_length c rest
          simp only [List.length_cons] at this hlen
          omega
        exact ih _ hlen2 hsub t h hid

theorem parseNotExistsRequirement_ok_key {toks : List (Token × String)}
    {p : Requirement × List (Token × String)}
    (h : parseNotExistsRequirement toks = .ok p) :
    (nextTok toks).1.1 = Token.IDENT ∧ p.1.Key = (nextTok toks).1.2 := by
  simp only [parseNotExistsRequirement] at h
  split_ifs at h with h1
  · injection h with h
    subst h
    exact ⟨h1, rfl⟩

theorem parseLoop_keys :
    ∀ (n : Nat) (toks : List (Token × String)) (acc : List Requirement),
      toks.length ≤ n →
      (∀ t ∈ toks, t.1 = Token.IDENT → ¬ t.2 = "") →
      (∀ req ∈ acc, ¬ req.Key = "") →
      ∀ req ∈ (parseLoop toks acc).1.Requirements, ¬ req.Key = "" := by
  intro n
  induction n with
  | zero =>
    intro toks acc hlen H Hacc
    have htoks : toks = [] := List.eq_nil_of_length_eq_zero (Nat.le_zero.mp hlen)
    subst htoks
    rw [parseLoop_nil]
    exact Hacc
  | succ n ih =>
    intro toks acc hlen H Hacc
    by_cases t1 : (nextTok toks).1.1 = Token.COMMA
    · rw [parseLoop_comma acc t1]
      refine ih _ acc ?_ ?_ Hacc
      · have := nextTok_length_lt toks (by simp [t1]); omega
      · exact fun t ht => H t ((nextTok_suffix toks).subset ht)
    by_cases t2 : (nextTok toks).1.1 = Token.EOF
    · rw [parseLoop_eof acc t2]; exact Hacc
    by_cases t3 : (nextTok toks).1.1 = Token.ILLEGAL
    · rw [parseLoop_illegal acc t3]; exact Hacc
    by_cases t4 : (nextTok toks).1.1 = Token.EXCLAMATION_MARK
    · rw [parseLoop_excl acc t4]
      rcases hp : parseNotExistsRequirement (nextTok toks).2 with e | p
      · simp only [hp]; exact Hacc
      · simp only [hp]
        obtain ⟨hIDk, hKey⟩ := parseNotExistsRequirement_ok_key hp
        have hkey_ne : ¬ p.1.Key = "" := by
          rw [hKey]
          rcases nextTok_mem (nextTok toks).2 with hm | hm
          · exact H _ ((nextTok_suffix toks).subset hm) hIDk
          · rw [hm] at hIDk; simp at hIDk
        refine ih _ (acc ++ [p.1]) ?_ ?_ ?_
        · have hs1 := (parseNotExistsRequirement_ok hp).length_le
          have hs2 := nextTok_length_lt toks (by simp [t4])
          omega
        · exact fun t ht =>
            H t ((nextTok_suffix toks).subset ((parseNotExistsRequirement_ok hp).subset ht))
        · intro r hr
          rcases List.mem_append.mp hr with hh | hh
          · exact Hacc r hh
          · rw [List.mem_singleton.mp hh]; exact hkey_ne
    by_cases t5 : (nextTok toks).1.1 = Token.IDENT
    · rw [parseLoop_ident acc t5]
      have hkey_ne : ¬ (nextTok toks).1.2 = "" := by
        rcases nextTok_mem toks with hm | hm
        · exact H _ hm t5
        · rw [hm] at t5; simp at t5
      rcases hp : parseIdentClause (nextTok toks).1.2 (nextTok toks).2 with e | p
      · simp only [hp]; exact Hacc
      · simp only [hp]
        obtain ⟨hsuf, hKey⟩ := parseIdentClause_ok hp
        refine ih _ (acc ++ [p.1]) ?_ ?_ ?_
        · have hs1 := hsuf.length_le
          have hs2 := nextTok_length_lt toks (by simp [t5])
          omega
        · exact fun t ht => H t ((nextTok_suffix toks).subset (hsuf.subset ht))
        · intro r hr
          rcases List.mem_append.mp hr with hh | hh
          · exact Hacc r hh
          · rw [List.mem_singleton.mp hh, hKey]; exact hkey_ne
    · rw [parseLoop_other acc t1 t2 t3 t4 t5]
      refine ih _ acc ?_ ?_ Hacc
      · have := nextTok_length_lt toks t2; omega
      · exact fun t ht => H t ((nextTok_suffix toks).subset ht)

/-! ### Error propagation: each clause dispatch hands the stream to its
sub-parser and the loop returns a sub-parser failure unchanged -/

theorem parseLoop_excl_error (toks : List (Token × String)) (sel : List Requirement)
    (e : String) (h1 : (nextTok toks).1.1 = Token.EXCLAMATION_MARK)
    (h2 : parseNotExistsRequirement (nextTok toks).2 = .error e) :
    parseLoop toks sel = (⟨sel⟩, some e) := by
  rw [parseLoop_excl sel h1, h2]

theorem parseLoop_ident_error (toks : List (Token × String)) (sel : List Requirement)
    (e : String) (h1 : (nextTok toks).1.1 = Token.IDENT)
    (h2 : parseIdentClause (nextTok toks).1.2 (nextTok toks).2 = .error e) :
    parseLoop toks sel = (⟨sel⟩, some e) := by
  rw [parseLoop_ident sel h1, h2]

theorem parseIdentClause_equal (key : String) (toks : List (Token × String))
    (h : (nextTok toks).1.1 = Token.EQUAL) :
    parseIdentClause key toks = parseEqualRequirement key (nextTok toks).2 := by
  simp [parseIdentClause, h]

theorem parseIdentClause_notEqual (key : String) (toks : List (Token × String))
    (h : (nextTok toks).1.1 = Token.NOT_EQUAL) :
    parseIdentClause key toks = parseNotEqualRequirement key (nextTok toks).2 := by
  simp [parseIdentClause, h]

theorem parseIdentClause_in (key : String) (toks : List (Token × String))
    (h : (nextTok toks).1.1 = Token.IN) :
    parseIdentClause key toks = parseInRequirement key (nextTok toks).2 := by
  simp [parseIdentClause, h]

theorem parseIdentClause_lowerThan (key : String) (toks : List (Token × String))
    (h : (nextTok toks).1.1 = Token.LOWER_THAN) :
    parseIdentClause key toks = parseLowerThanRequirement key (nextTok toks).2 := by
  simp [parseIdentClause, h]

theorem parseIdentClause_lowerThanEqual (key : String) (toks : List (Token × String))
    (h : (nextTok toks).1.1 = Token.LOWER_THAN_EQUAL) :
    parseIdentClause key toks = parseLowerThanEqualRequirement key (nextTok toks).2 := by
  simp [parseIdentClause, h]

theorem parseIdentClause_greaterThan (key : String) (toks : List (Token × String))
    (h : (nextTok toks).1.1 = Token.GREATER_THAN) :
    parseIdentClause key toks = parseGreaterThanRequirement key (nextTok toks).2 := by
  simp [parseIdentClause, h]

theorem parseIdentClause_greaterThanEqual (key : String) (toks : List (Token × String))
    (h : (nextTok toks).1.1 = Token.GREATER_THAN_EQUAL) :
    parseIdentClause key toks = parseGreaterThanEqualRequirement key (nextTok toks).2 := by
  simp [parseIdentClause, h]

theorem parseIdentClause_notIn (key : String) (toks : List (Token × String))
    (h : (nextTok toks).1.1 = Token.NOT) :
    parseIdentClause key toks = parseNotInRequirement key (nextTok toks).2 := by
  simp [parseIdentClause, h]

/-! ### The claims -/

/-- C1: `ParseString "foo >= 5"` yields one GreaterThanEqual requirement with
key `foo` and value `"5"` and no error; and in the tokenizer `>` emits
GreaterThanEqual when followed by `=` and GreaterThan otherwise, with `<`
symmetrically yielding LowerThanEqual / LowerThan. -/
theorem C1_comparison_operators :
    ParseString "foo >= 5" =
      ({ Requirements := [{ Key := "foo", Value := "5", Values := [], Operation := .OperationGreaterThanEqual }] }, none) ∧
    (∀ rest : List Char, lexNext ('>' :: '=' :: rest) = (Token.GREATER_THAN_EQUAL, ">=", rest)) ∧
    (∀ (c : Char) (rest : List Char), ¬ c = '=' →
      lexNext ('>' :: c :: rest) = (Token.GREATER_THAN, ">", c :: rest)) ∧
    lexNext ['>'] = (Token.GREATER_THAN, ">", []) ∧
    (∀ rest : List Char, lexNext ('<' :: '=' :: rest) = (Token.LOWER_THAN_EQUAL, "<=", rest)) ∧
    (∀ (c : Char) (rest : List Char), ¬ c = '=' →
      lexNext ('<' :: c :: rest) = (Token.LOWER_THAN, "<", c :: rest)) ∧
    lexNext ['<'] = (Token.LOWER_THAN, "<", []) := by
  refine ⟨by decide, fun rest => rfl, ?_, rfl, fun rest => rfl, ?_, rfl⟩
  · intro c rest hc
    show lexCompare '>' (c :: rest) = (Token.GREATER_THAN, ">", c :: rest)
    unfold lexCompare
    rw [if_neg (by decide)]
    split
    · next rest2 heq => injection heq with ha hb; exact absurd ha hc
    · rfl
  · intro c rest hc
    show lexCompare '<' (c :: rest) = (Token.LOWER_THAN, "<", c :: rest)
    unfold lexCompare
    rw [if_pos rfl]
    split
    · next rest2 heq => injection heq with ha hb; exact absurd ha hc
    · rfl

/-- Witness for C1 at concrete inputs. -/
theorem C1_comparison_operators_witness :
    lexNext ('>' :: '5' :: []) = (Token.GREATER_THAN, ">", '5' :: []) ∧
    lexNext ('<' :: 'a' :: []) = (Token.LOWER_THAN, "<", 'a' :: []) :=
  ⟨C1_comparison_operators.2.2.1 '5' [] (by decide),
   C1_comparison_operators.2.2.2.2.2.1 'a' [] (by decide)⟩

/-- C2 counterexample: the claim says a leading token that starts no valid
clause (such as `=` or a bracket) makes Parse fail with the default
"unexpected token" error; in fact `=foo` parses successfully — the `=` is
silently discarded and the following identifier still becomes a
requirement — and `)` parses successfully to an empty selector. -/
theorem C2_counterexample :
    ParseString "=foo" =
      ({ Requirements := [{ Key := "foo", Value := "", Values := [], Operation := .OperationExists }] }, none) ∧
    ParseString ")" = ({ Requirements := [] }, none) := by
  exact ⟨by decide, by decide⟩

/-- C2 (amended): a token kind that starts no valid clause at the top of the
parse loop (anything other than comma, EOF, illegal, `!` and identifier) is
silently discarded: the loop continues on the remaining stream with the
selector unchanged, and no error is produced for it. -/
theorem C2_unhandled_leading_token (toks : List (Token × String)) (sel : List Requirement)
    (h1 : ¬ (nextTok toks).1.1 = Token.COMMA) (h2 : ¬ (nextTok toks).1.1 = Token.EOF)
    (h3 : ¬ (nextTok toks).1.1 = Token.ILLEGAL)
    (h4 : ¬ (nextTok toks).1.1 = Token.EXCLAMATION_MARK)
    (h5 : ¬ (nextTok toks).1.1 = Token.IDENT) :
    parseLoop toks sel = parseLoop (nextTok toks).2 sel :=
  parseLoop_other sel h1 h2 h3 h4 h5

/-- Witness for the amended C2: a leading closing bracket is dropped. -/
theorem C2_unhandled_leading_token_witness :
    parseLoop [(Token.CLOSING_BRACKET, ")")] [] = parseLoop [] [] := by
  have h := C2_unhandled_leading_token [(Token.CLOSING_BRACKET, ")")] []
    (by decide) (by decide) (by decide) (by decide) (by decide)
  exact h

/-- C3 counterexample: the claim says every requirement of a successful parse
has a non-empty key, including keys from double-quoted identifiers; in fact
the input consisting of two double quotes parses successfully to an Exists
requirement whose key is the empty string. -/
theorem C3_counterexample :
    ParseString "\"\"" =
      ({ Requirements := [{ Key := "", Value := "", Values := [], Operation := .OperationExists }] }, none) := by
  decide

/-- C3 (amended): for every input that contains no double-quote character,
every requirement of a successful parse has a non-empty key; only a
double-quoted identifier can produce an empty key. -/
theorem C3_keys_nonempty (l : List Char)
    (hq : ∀ c ∈ l, ¬ c = '"') (hok : (Parse l).2 = none) :
    ∀ req ∈ (Parse l).1.Requirements, ¬ req.Key = "" := by
  intro req hreq
  have H := tokenize_ident_nonempty l.length l (Nat.le_refl _) hq
  exact parseLoop_keys (tokenize l).length (tokenize l) [] (Nat.le_refl _) H
    (by simp) req hreq

/-- Witness for the amended C3 at a concrete quote-free input and its
concrete parsed requirement. -/
theorem C3_keys_nonempty_witness :
    ¬ ({ Key := "foo", Value := "bar", Values := [], Operation := .OperationEquals } : Requirement).Key = "" :=
  C3_keys_nonempty ("foo=bar".toList) (by decide) (by decide)
    { Key := "foo", Value := "bar", Values := [], Operation := .OperationEquals } (by decide)

/-- C4: when any sub-parser detects a violation, Parse stops immediately at
the first violation and returns that error unchanged together with the
requirements accumulated before the failing clause, with no
resynchronization or continuation afterwards: one conjunct per sub-parser
(not-exists, equal, not-equal, the four comparisons, in, and not-in —
ident-list violations surface as in/not-in errors), each quantified over any
stream, any accumulated selector, and any error the sub-parser reports; plus
the concrete example `"foo, bar="`, which returns Exists(foo) alongside
"expect identifier after equal operator". -/
theorem C4_fail_fast :
    (∀ (toks : List (Token × String)) (sel : List Requirement) (e : String),
      (nextTok toks).1.1 = Token.EXCLAMATION_MARK →
      parseNotExistsRequirement (nextTok toks).2 = .error e →
      parseLoop toks sel = (⟨sel⟩, some e)) ∧
    (∀ (toks : List (Token × String)) (sel : List Requirement) (e : String),
      (nextTok toks).1.1 = Token.IDENT →
      (nextTok (nextTok toks).2).1.1 = Token.EQUAL →
      parseEqualRequirement (nextTok toks).1.2 (nextTok (nextTok toks).2).2 = .error e →
      parseLoop toks sel = (⟨sel⟩, some e)) ∧
    (∀ (toks : List (Token × String)) (sel : List Requirement) (e : String),
      (nextTok toks).1.1 = Token.IDENT →
      (nextTok (nextTok toks).2).1.1 = Token.NOT_EQUAL →
      parseNotEqualRequirement (nextTok toks).1.2 (nextTok (nextTok toks).2).2 = .error e →
      parseLoop toks sel = (⟨sel⟩, some e)) ∧
    (∀ (toks : List (Token × String)) (sel : List Requirement) (e : String),
      (nextTok toks).1.1 = Token.IDENT →
      (nextTok (nextTok toks).2).1.1 = Token.LOWER_THAN →
      parseLowerThanRequirement (nextTok toks).1.2 (nextTok (nextTok toks).2).2 = .error e →
      parseLoop toks sel = (⟨sel⟩, some e)) ∧
    (∀ (toks : List (Token × String)) (sel : List Requirement) (e : String),
      (nextTok toks).1.1 = Token.IDENT →
      (nextTok (nextTok toks).2).1.1 = Token.LOWER_THAN_EQUAL →
      parseLowerThanEqualRequirement (nextTok toks).1.2 (nextTok (nextTok toks).2).2 = .error e →
      parseLoop toks sel = (⟨sel⟩, some e)) ∧
    (∀ (toks : List (Token × String)) (sel : List Requirement) (e : String),
      (nextTok toks).1.1 = Token.IDENT →
      (nextTok (nextTok toks).2).1.1 = Token.GREATER_THAN →
      parseGreaterThanRequirement (nextTok toks).1.2 (nextTok (nextTok toks).2).2 = .error e →
      parseLoop toks sel = (⟨sel⟩, some e)) ∧
    (∀ (toks : List (Token × String)) (sel : List Requirement) (e : String),
      (nextTok toks).1.1 = Token.IDENT →
      (nextTok (nextTok toks).2).1.1 = Token.GREATER_THAN_EQUAL →
      parseGreaterThanEqualRequirement (nextTok toks).1.2 (nextTok (nextTok toks).2).2 = .error e →
      parseLoop toks sel = (⟨sel⟩, some e)) ∧
    (∀ (toks : List (Token × String)) (sel : List Requirement) (e : String),
      (nextTok toks).1.1 = Token.IDENT →
      (nextTok (nextTok toks).2).1.1 = Token.IN →
      parseInRequirement (nextTok toks).1.2 (nextTok (nextTok toks).2).2 = .error e →
      parseLoop toks sel = (⟨sel⟩, some e)) ∧
    (∀ (toks : List (Token × String)) (sel : List Requirement) (e : String),
      (nextTok toks).1.1 = Token.IDENT →
      (nextTok (nextTok toks).2).1.1 = Token.NOT →
      parseNotInRequirement (nextTok toks).1.2 (nextTok (nextTok toks).2).2 = .error e →
      parseLoop toks sel = (⟨sel⟩, some e)) ∧
    ParseString "foo, bar=" =
      ({ Requirements := [existsRequirement "foo"] }, some "expect identifier after equal operator") := by
  refine ⟨?_, ?_, ?_, ?_, ?_, ?_, ?_, ?_, ?_, by decide⟩
  · intro toks sel e h1 herr
    exact parseLoop_excl_error toks sel e h1 herr
  · intro toks sel e h1 h2 herr
    refine parseLoop_ident_error toks sel e h1 ?_
    rw [parseIdentClause_equal _ _ h2]
    exact herr
  · intro toks sel e h1 h2 herr
    refine parseLoop_ident_error toks sel e h1 ?_
    rw [parseIdentClause_notEqual _ _ h2]
    exact herr
  · intro toks sel e h1 h2 herr
    refine parseLoop_ident_error toks sel e h1 ?_
    rw [parseIdentClause_lowerThan _ _ h2]
    exact herr
  · intro toks sel e h1 h2 herr
    refine parseLoop_ident_error toks sel e h1 ?_
    rw [parseIdentClause_lowerThanEqual _ _ h2]
    exact herr
  · intro toks sel e h1 h2 herr
    refine parseLoop_ident_error toks sel e h1 ?_
    rw [parseIdentClause_greaterThan _ _ h2]
    exact herr
  · intro toks sel e h1 h2 herr
    refine parseLoop_ident_error toks sel e h1 ?_
    rw [parseIdentClause_greaterThanEqual _ _ h2]
    exact herr
  · intro toks sel e h1 h2 herr
    refine parseLoop_ident_error toks sel e h1 ?_
    rw [parseIdentClause_in _ _ h2]
    exact herr
  · intro toks sel e h1 h2 herr
    refine parseLoop_ident_error toks sel e h1 ?_
    rw [parseIdentClause_notIn _ _ h2]
    exact herr

/-- Witness for C4's general conjuncts at concrete streams: a failing
not-exists clause, a failing equal clause with a nonempty accumulated
selector, and a failing in clause whose error comes from inside the
bracketed ident list. -/
theorem C4_fail_fast_witness :
    parseLoop [(Token.EXCLAMATION_MARK, "!"), (Token.COMMA, ",")] [] =
      (⟨[]⟩, some "expect identifier after exclamation mark") ∧
    parseLoop [(Token.IDENT, "k"), (Token.EQUAL, "="), (Token.CLOSING_BRACKET, ")")]
        [existsRequirement "pre"] =
      (⟨[existsRequirement "pre"]⟩, some "expect identifier after equal operator") ∧
    parseLoop [(Token.IDENT, "k"), (Token.IN, "in"), (Token.OPENING_BRACKET, "("),
        (Token.EQUAL, "=")] [] =
      (⟨[]⟩, some "unexpected token in value list (=)") :=
  ⟨C4_fail_fast.1 _ _ _ (by decide) rfl,
   C4_fail_fast.2.1 _ _ _ (by decide) (by decide) rfl,
   C4_fail_fast.2.2.2.2.2.2.2.1 _ _ _ (by decide) (by decide) rfl⟩

/-- C5: quoted-identifier scanning: after the opening quote, characters are
consumed verbatim until an unescaped `"` or end of input, the emitted token
is an Identifier carrying the raw consumed text (a backslash escape stays in
place, unescaped), and hitting end of input without a closing quote is not
an error — the literal simply ends there. -/
theorem C5_quoted_identifier :
    (∀ s : List Char, (∀ c ∈ s, ¬ c = '"' ∧ ¬ c = eofRune) →
      lexNext ('"' :: s) = (Token.IDENT, String.mk s, [])) ∧
    (∀ (s r : List Char), (∀ c ∈ s, ¬ c = '"' ∧ ¬ c = eofRune) →
      ¬ s.getLast? = some '\\' →
      lexNext ('"' :: (s ++ '"' :: r)) = (Token.IDENT, String.mk s, r)) ∧
    (∀ (s r : List Char), (∀ c ∈ s, ¬ c = '"' ∧ ¬ c = eofRune) →
      lexNext ('"' :: (s ++ '\\' :: '"' :: r)) =
        (Token.IDENT,
         String.mk (s ++ '\\' :: '"' :: (scanQuotedIdentAux r eofRune).1),
         (scanQuotedIdentAux r eofRune).2)) := by
  refine ⟨?_, ?_, ?_⟩
  · intro s hs
    show scanQuotedIdent s = (Token.IDENT, String.mk s, [])
    simp only [scanQuotedIdent]
    rw [scanQuotedIdentAux_no_quote s hs eofRune]
  · intro s r hs hlast
    show scanQuotedIdent (s ++ '"' :: r) = (Token.IDENT, String.mk s, r)
    simp only [scanQuotedIdent]
    rw [scanQuotedIdentAux_terminated s r hs hlast eofRune (fun _ => by decide)]
  · intro s r hs
    show scanQuotedIdent (s ++ '\\' :: '"' :: r) = _
    simp only [scanQuotedIdent]
    rw [scanQuotedIdentAux_escape s r hs eofRune,
      scanQuotedIdentAux_last_irrel r '"' eofRune (by decide) (by decide)]

/-- Witness for C5 at concrete inputs: an unterminated literal, a terminated
one, and one with an escaped quote that stays in the text. -/
theorem C5_quoted_identifier_witness :
    lexNext ('"' :: ['a']) = (Token.IDENT, String.mk ['a'], []) ∧
    lexNext ('"' :: (['a'] ++ '"' :: ['b'])) = (Token.IDENT, String.mk ['a'], ['b']) ∧
    lexNext ('"' :: (['a'] ++ '\\' :: '"' :: ['b'])) =
      (Token.IDENT,
       String.mk (['a'] ++ '\\' :: '"' :: (scanQuotedIdentAux ['b'] eofRune).1),
       (scanQuotedIdentAux ['b'] eofRune).2) :=
  ⟨C5_quoted_identifier.1 ['a'] (by decide),
   C5_quoted_identifier.2.1 ['a'] ['b'] (by decide) (by decide),
   C5_quoted_identifier.2.2 ['a'] ['b'] (by decide)⟩

/-- C6: any input made of comma-separated bare identifiers — with arbitrary
extra leading, trailing, or doubled commas and whitespace — parses without
error to exactly one Exists requirement per identifier, in input order, with
no spurious requirement from the extra commas. -/
theorem C6_bare_identifier_lists (sep0 : List Char) (pairs : List (String × List Char))
    (hsep0 : sepOnly sep0 = true) (hchain : bareChain pairs = true) :
    Parse (sep0 ++ renderBare pairs) =
      ({ Requirements := pairs.map (fun p => existsRequirement p.1) }, none) := by
  have hl : ∀ c cs, renderBare pairs = c :: cs → isValidIdentRune c = true := by
    intro c cs hcc
    match hp : pairs with
    | [] => simp [renderBare] at hcc
    | p :: rest =>
      have hid : bareIdent p.1 = true := by
        simp only [bareChain, Bool.and_eq_true] at hchain
        exact hchain.1.1.1
      obtain ⟨hne, hidc, _, _⟩ := bareIdent_spec hid
      simp only [renderBare] at hcc
      match hq2 : p.1.toList with
      | [] => exact absurd hq2 hne
      | c0 :: cs0 =>
        rw [hq2] at hcc
        simp only [List.cons_append, List.append_assoc] at hcc
        injection hcc with h1 h2
        rw [← h1]
        exact hidc c0 (by rw [hq2]; exact List.mem_cons_self c0 cs0)
  show parseLoop (tokenize (sep0 ++ renderBare pairs)) [] = _
  rw [parseLoop_sep sep0.length sep0 (renderBare pairs) [] (Nat.le_refl _) hsep0 hl]
  rw [parseLoop_bareChain pairs [] hchain]
  simp

/-- Witness for C6 at a concrete input with a leading comma, internal
whitespace and a doubled comma. -/
theorem C6_bare_identifier_lists_witness :
    Parse ([','] ++ renderBare [("foo", [' ', ',', ',']), ("bar", [' '])]) =
      ({ Requirements := [existsRequirement "foo", existsRequirement "bar"] }, none) := by
  have h := C6_bare_identifier_lists [','] [("foo", [' ', ',', ',']), ("bar", [' '])]
    (by decide) (by decide)
  exact h

/-- C7: a scanned identifier run is case-folded to uppercase only for
keyword recognition: if it equals NOT or IN case-insensitively the keyword
token is emitted, otherwise an Identifier token carrying the original-case
text is emitted. -/
theorem C7_keyword_recognition (s : String) (tail : List Char)
    (hne : ¬ s.toList = [])
    (hid : ∀ c ∈ s.toList, isValidIdentRune c = true)
    (htail : ∀ c cs, tail = c :: cs → isValidIdentRune c = false ∧ ¬ c = eofRune) :
    lexNext (s.toList ++ tail) =
      (if toUpperString s = "NOT" then Token.NOT
       else if toUpperString s = "IN" then Token.IN else Token.IDENT, s, tail) :=
  lexNext_ident_append s tail hne hid htail

/-- Witness for C7: `In` is recognized as the IN keyword while keeping its
original-case literal, and `foo` stays an identifier. -/
theorem C7_keyword_recognition_witness :
    lexNext (("In" : String).toList ++ []) =
      (if toUpperString "In" = "NOT" then Token.NOT
       else if toUpperString "In" = "IN" then Token.IN else Token.IDENT, "In", []) ∧
    lexNext (("foo" : String).toList ++ []) =
      (if toUpperString "foo" = "NOT" then Token.NOT
       else if toUpperString "foo" = "IN" then Token.IN else Token.IDENT, "foo", []) :=
  ⟨C7_keyword_recognition "In" [] (by decide) (by decide) (fun c cs h => List.noConfusion h),
   C7_keyword_recognition "foo" [] (by decide) (by decide) (fun c cs h => List.noConfusion h)⟩

/-- C8: for every bare identifier key, `key in ()` parses without error to a
single In requirement for that key with an empty Values sequence. -/
theorem C8_in_empty_list (key : String) (hkey : bareIdent key = true) :
    ParseString (key ++ " in ()") =
      ({ Requirements := [{ Key := key, Value := "", Values := [], Operation := .OperationIn }] }, none) := by
  obtain ⟨hne, hidc, hNOT, hIN⟩ := bareIdent_spec hkey
  have hsplit : (key ++ " in ()").toList = key.toList ++ (" in ()" : String).toList := rfl
  have htail : ∀ c cs, (" in ()" : String).toList = c :: cs →
      isValidIdentRune c = false ∧ ¬ c = eofRune := by
    intro c cs h
    rw [show (" in ()" : String).toList = ' ' :: ['i', 'n', ' ', '(', ')'] from rfl] at h
    injection h with h1 h2
    rw [← h1]
    exact ⟨by decide, by decide⟩
  have hlex := lexNext_ident_append key (" in ()" : String).toList hne hidc htail
  rw [if_neg hNOT, if_neg hIN] at hlex
  have hne2 : ¬ key.toList ++ (" in ()" : String).toList = [] := by
    intro hz
    exact hne (List.append_eq_nil.mp hz).1
  show parseLoop (tokenize ((key ++ " in ()").toList)) [] = _
  rw [hsplit, tokenize_ne_nil _ hne2, hlex]
  rfl

/-- Witness for C8 at a concrete key. -/
theorem C8_in_empty_list_witness :
    ParseString ("foo" ++ " in ()") =
      ({ Requirements := [{ Key := "foo", Value := "", Values := [], Operation := .OperationIn }] }, none) :=
  C8_in_empty_list "foo" (by decide)

/-- C9 counterexample: the claim says inserting a space between tokens never
changes the parse result (same selector, same error); but inserting a space
between the `!` and `b` of `a !b` changes the reported error, because the
ExclamationMark token's literal is the character that follows the `!`. -/
theorem C9_counterexample :
    ParseString "a !b" = ({ Requirements := [] }, some "unexpected token 'b'") ∧
    ParseString "a ! b" = ({ Requirements := [] }, some "unexpected token ' '") ∧
    ¬ ParseString "a !b" = ParseString "a ! b" :=
  ⟨by decide, by decide, by decide⟩

/-- C9 (amended): the parse result depends only on the whitespace-filtered
token sequence (kinds and literals): any two inputs that tokenize to the
same sequence of non-whitespace tokens parse to the same selector and the
same error.  (Whitespace edits that change a token literal — such as the
lookahead literal of `!` — or merge identifier runs are exactly the ones
that escape this invariance.) -/
theorem C9_ws_invariance (l1 l2 : List Char)
    (h : filterWS (tokenize l1) = filterWS (tokenize l2)) :
    Parse l1 = Parse l2 := by
  show parseLoop (tokenize l1) [] = parseLoop (tokenize l2) []
  rw [← parseLoop_filterWS (tokenize l1) [], ← parseLoop_filterWS (tokenize l2) [], h]

/-- Witness for the amended C9: widening the whitespace around `=` leaves the
whole parse unchanged. -/
theorem C9_ws_invariance_witness :
    Parse ("foo = bar".toList) = Parse ("foo  =  bar".toList) :=
  C9_ws_invariance ("foo = bar".toList) ("foo  =  bar".toList) (by decide)

/-- C10: for every pair of bare identifiers, `key=value` and `key==value`
parse to identical requirements — same key, Equals operation, same value —
with no error. -/
theorem C10_equal_aliasing (key value : String)
    (hkey : bareIdent key = true) (hvalue : bareIdent value = true) :
    ParseString (key ++ "=" ++ value) = ParseString (key ++ "==" ++ value) ∧
    ParseString (key ++ "=" ++ value) =
      ({ Requirements := [{ Key := key, Value := value, Values := [], Operation := .OperationEquals }] }, none) := by
  obtain ⟨hkne, hkid, hkNOT, hkIN⟩ := bareIdent_spec hkey
  obtain ⟨hvne, hvid, hvNOT, hvIN⟩ := bareIdent_spec hvalue
  have hvtok : tokenize value.toList = [(Token.IDENT, value)] := by
    have hlexv := lexNext_ident_append value [] hvne hvid (fun c cs h => List.noConfusion h)
    rw [if_neg hvNOT, if_neg hvIN, List.append_nil] at hlexv
    rw [tokenize_ne_nil value.toList hvne, hlexv]
    rfl
  match hv : value.toList with
  | [] => exact absurd hv hvne
  | c0 :: cs0 =>
    have hc0 : isValidIdentRune c0 = true := hvid c0 (by rw [hv]; exact List.mem_cons_self c0 cs0)
    have hc0ne : ¬ c0 = '=' := by
      intro h
      rw [h] at hc0
      exact absurd hc0 (by decide)
    have h2a : tokenize ('=' :: value.toList) =
        (Token.EQUAL, String.mk [c0]) :: tokenize value.toList := by
      have hlx : lexNext ('=' :: value.toList) = (Token.EQUAL, String.mk [c0], value.toList) := by
        rw [hv]
        show (match c0 :: cs0 with
          | '=' :: rest2 => (Token.EQUAL, "==", rest2)
          | _ => (Token.EQUAL, readLit (c0 :: cs0), c0 :: cs0)) =
          (Token.EQUAL, String.mk [c0], c0 :: cs0)
        split
        · next rest2 heq => injection heq with ha hb; exact absurd ha hc0ne
        · rfl
      rw [tokenize_cons, hlx]
    have h2b : tokenize ('=' :: '=' :: value.toList) =
        (Token.EQUAL, "==") :: tokenize value.toList := by
      rw [tokenize_cons]
      rfl
    have htaila : ∀ c cs, '=' :: value.toList = c :: cs →
        isValidIdentRune c = false ∧ ¬ c = eofRune := by
      intro c cs h
      injection h with h1 h2
      rw [← h1]
      exact ⟨by decide, by decide⟩
    have htailb : ∀ c cs, '=' :: '=' :: value.toList = c :: cs →
        isValidIdentRune c = false ∧ ¬ c = eofRune := by
      intro c cs h
      injection h with h1 h2
      rw [← h1]
      exact ⟨by decide, by decide⟩
    have hlexa := lexNext_ident_append key ('=' :: value.toList) hkne hkid htaila
    rw [if_neg hkNOT, if_neg hkIN] at hlexa
    have hlexb := lexNext_ident_append key ('=' :: '=' :: value.toList) hkne hkid htailb
    rw [if_neg hkNOT, if_neg hkIN] at hlexb
    have hnea : ¬ key.toList ++ ('=' :: value.toList) = [] := by
      intro hz
      exact hkne (List.append_eq_nil.mp hz).1
    have hneb : ¬ key.toList ++ ('=' :: '=' :: value.toList) = [] := by
      intro hz
      exact hkne (List.append_eq_nil.mp hz).1
    have hsplita : (key ++ "=" ++ value).toList = key.toList ++ ('=' :: value.toList) := by
      show (key.toList ++ ['=']) ++ value.toList = key.toList ++ ('=' :: value.toList)
      rw [List.append_assoc]
      rfl
    have hsplitb : (key ++ "==" ++ value).toList = key.toList ++ ('=' :: '=' :: value.toList) := by
      show (key.toList ++ ['=', '=']) ++ value.toList = key.toList ++ ('=' :: '=' :: value.toList)
      rw [List.append_assoc]
      rfl
    have htoka : tokenize ((key ++ "=" ++ value).toList) =
        (Token.IDENT, key) :: (Token.EQUAL, String.mk [c0]) :: [(Token.IDENT, value)] := by
      rw [hsplita, tokenize_ne_nil _ hnea, hlexa]
      show (Token.IDENT, key) :: tokenize ('=' :: value.toList) = _
      rw [h2a, hvtok]
    have htokb : tokenize ((key ++ "==" ++ value).toList) =
        (Token.IDENT, key) :: (Token.EQUAL, "==") :: [(Token.IDENT, value)] := by
      rw [hsplitb, tokenize_ne_nil _ hneb, hlexb]
      show (Token.IDENT, key) :: tokenize ('=' :: '=' :: value.toList) = _
      rw [h2b, hvtok]
    have hgen : ∀ lit : String,
        parseLoop [(Token.IDENT, key), (Token.EQUAL, lit), (Token.IDENT, value)] [] =
          ({ Requirements := [{ Key := key, Value := value, Values := [], Operation := .OperationEquals }] }, none) :=
      fun lit => rfl
    constructor
    · show parseLoop (tokenize ((key ++ "=" ++ value).toList)) [] =
        parseLoop (tokenize ((key ++ "==" ++ value).toList)) []
      rw [htoka, htokb]
      rw [hgen (String.mk [c0]), hgen "=="]
    · show parseLoop (tokenize ((key ++ "=" ++ value).toList)) [] = _
      rw [htoka]
      exact hgen (String.mk [c0])

/-- Witness for C10 at concrete identifiers. -/
theorem C10_equal_aliasing_witness :
    ParseString ("foo" ++ "=" ++ "bar") = ParseString ("foo" ++ "==" ++ "bar") ∧
    ParseString ("foo" ++ "=" ++ "bar") =
      ({ Requirements := [{ Key := "foo", Value := "bar", Values := [], Operation := .OperationEquals }] }, none) :=
  C10_equal_aliasing "foo" "bar" (by decide) (by decide)
